import Mathlib

/-!
Verification of the distribution-analysis engine of `script.js`
(STA2030 calculator).

The JavaScript source is shallowly embedded: strings are `List Char`,
JavaScript numbers are modelled by `JSNum` (an exact rational together with
the three non-finite IEEE values `Infinity`, `-Infinity` and `NaN`; rounding
of finite arithmetic is idealised away, the non-finite propagation rules
follow the JavaScript semantics).  The external `math.js` expression
compiler/evaluator is abstracted as a function `JSNum → JSNum` supplied by
the caller (the semantics of the compiled user expression); where the code
evaluates a freshly composed expression string, the corresponding semantic
composition is used.  `toLowerCase` and the `\s` whitespace class are
modelled on ASCII.
-/

set_option maxHeartbeats 1000000

/-- Model of a JavaScript number: an exact finite rational, `Infinity`,
`-Infinity`, or `NaN`. -/
inductive JSNum where
  | fin : ℚ → JSNum
  | inf : JSNum
  | ninf : JSNum
  | nan : JSNum
deriving DecidableEq

namespace JSNum

/-- JavaScript addition on `JSNum`. -/
def add : JSNum → JSNum → JSNum
  | nan, _ => nan
  | _, nan => nan
  | fin a, fin b => fin (a + b)
  | fin _, inf => inf
  | fin _, ninf => ninf
  | inf, fin _ => inf
  | inf, inf => inf
  | inf, ninf => nan
  | ninf, fin _ => ninf
  | ninf, inf => nan
  | ninf, ninf => ninf

/-- JavaScript negation on `JSNum`. -/
def neg : JSNum → JSNum
  | nan => nan
  | fin a => fin (-a)
  | inf => ninf
  | ninf => inf

/-- JavaScript subtraction on `JSNum`. -/
def sub (a b : JSNum) : JSNum := add a (neg b)

/-- JavaScript multiplication on `JSNum`. -/
def mul : JSNum → JSNum → JSNum
  | nan, _ => nan
  | _, nan => nan
  | fin a, fin b => fin (a * b)
  | fin a, inf => if 0 < a then inf else if a < 0 then ninf else nan
  | inf, fin a => if 0 < a then inf else if a < 0 then ninf else nan
  | fin a, ninf => if 0 < a then ninf else if a < 0 then inf else nan
  | ninf, fin a => if 0 < a then ninf else if a < 0 then inf else nan
  | inf, inf => inf
  | inf, ninf => ninf
  | ninf, inf => ninf
  | ninf, ninf => inf

/-- JavaScript division on `JSNum` (division of a nonzero finite number by
zero gives a signed infinity, `0/0` gives `NaN`). -/
def div : JSNum → JSNum → JSNum
  | nan, _ => nan
  | _, nan => nan
  | fin a, fin b =>
      if b = 0 then (if 0 < a then inf else if a < 0 then ninf else nan)
      else fin (a / b)
  | fin _, inf => fin 0
  | fin _, ninf => fin 0
  | inf, fin a => if 0 ≤ a then inf else ninf
  | ninf, fin a => if 0 ≤ a then ninf else inf
  | inf, inf => nan
  | inf, ninf => nan
  | ninf, inf => nan
  | ninf, ninf => nan

/-- JavaScript `Math.abs` on `JSNum`. -/
def abs : JSNum → JSNum
  | nan => nan
  | fin a => fin |a|
  | inf => inf
  | ninf => inf

/-- JavaScript strict `<` comparison (false whenever `NaN` is involved). -/
def lt : JSNum → JSNum → Bool
  | nan, _ => false
  | _, nan => false
  | fin a, fin b => decide (a < b)
  | fin _, inf => true
  | fin _, ninf => false
  | inf, _ => false
  | ninf, ninf => false
  | ninf, _ => true

/-- JavaScript `<=` comparison (false whenever `NaN` is involved). -/
def le : JSNum → JSNum → Bool
  | nan, _ => false
  | _, nan => false
  | fin a, fin b => decide (a ≤ b)
  | fin _, inf => true
  | fin _, ninf => false
  | inf, inf => true
  | inf, _ => false
  | ninf, _ => true

/-- JavaScript `isFinite`. -/
def isFinite : JSNum → Bool
  | fin _ => true
  | _ => false

instance : Add JSNum := ⟨add⟩
instance : Sub JSNum := ⟨sub⟩
instance : Mul JSNum := ⟨mul⟩
instance : Div JSNum := ⟨div⟩
instance : Neg JSNum := ⟨neg⟩

end JSNum

/-- The range descriptor produced by `StatCore.parseRange`: either a discrete
list of values or a continuous interval whose bounds are JavaScript numbers
(possibly infinite). -/
inductive RangeDescriptor where
  | discrete (values : List ℚ) : RangeDescriptor
  | continuous (min max : JSNum) : RangeDescriptor
deriving DecidableEq

/-! ### Character and string (List Char) utilities -/

/-- ASCII model of the JavaScript `\s` whitespace class. -/
def isSpaceJS (c : Char) : Bool :=
  c = ' ' || c = '\t' || c = '\n' || c = '\r' || c = '\x0b' || c = '\x0c'

/-- ASCII model of `String.prototype.toLowerCase` on a single character. -/
def jsLower (c : Char) : Char :=
  if c = 'A' then 'a' else if c = 'B' then 'b' else if c = 'C' then 'c'
  else if c = 'D' then 'd' else if c = 'E' then 'e' else if c = 'F' then 'f'
  else if c = 'G' then 'g' else if c = 'H' then 'h' else if c = 'I' then 'i'
  else if c = 'J' then 'j' else if c = 'K' then 'k' else if c = 'L' then 'l'
  else if c = 'M' then 'm' else if c = 'N' then 'n' else if c = 'O' then 'o'
  else if c = 'P' then 'p' else if c = 'Q' then 'q' else if c = 'R' then 'r'
  else if c = 'S' then 's' else if c = 'T' then 't' else if c = 'U' then 'u'
  else if c = 'V' then 'v' else if c = 'W' then 'w' else if c = 'X' then 'x'
  else if c = 'Y' then 'y' else if c = 'Z' then 'z' else c

/-- `str.toLowerCase().replace(/\s/g, '')`: lower-case then strip whitespace. -/
def stripLower (s : List Char) : List Char :=
  (s.map jsLower).filter (fun c => !isSpaceJS c)

/-- First index at which `sep` occurs as a contiguous substring of `xs`
(the JavaScript `indexOf` on strings). -/
def findSub (sep : List Char) : List Char → Option ℕ
  | [] => if sep.isEmpty then some 0 else none
  | x :: xs =>
      if sep.isPrefixOf (x :: xs) then some 0
      else (findSub sep xs).map (· + 1)

/-- `String.prototype.includes`. -/
def hasSubstr (sep xs : List Char) : Bool := (findSub sep xs).isSome

/-- Fuel-driven worker for `splitOnList`. -/
def splitOnListAux (sep : List Char) : ℕ → List Char → List (List Char)
  | 0, xs => [xs]
  | fuel + 1, xs =>
      match findSub sep xs with
      | none => [xs]
      | some i => xs.take i :: splitOnListAux sep fuel (xs.drop (i + sep.length))

/-- `String.prototype.split` with a (nonempty) string separator: repeated
leftmost non-overlapping splitting. -/
def splitOnList (sep xs : List Char) : List (List Char) :=
  if sep.isEmpty then [xs] else splitOnListAux sep xs.length xs

/-- Replace every occurrence of `sep` by `tgt` (JavaScript
`replace(/sep/g, tgt)` for a literal pattern). -/
def replaceAll (sep tgt xs : List Char) : List Char :=
  List.intercalate tgt (splitOnList sep xs)

/-- Numeric value of a digit string. -/
def digitsToNat (ds : List Char) : ℕ :=
  ds.foldl (fun n c => 10 * n + (c.toNat - 48)) 0

/-- Model of JavaScript `parseFloat` on a whitespace-free string: parses the
longest prefix of the form `[+-]? (digits (. digits*)? | . digits+) ([eE][+-]?digits)?`
and returns `none` for `NaN` (no valid numeric prefix). -/
def parseFloatList (xs : List Char) : Option ℚ :=
  let (sgn, xs1) : ℚ × List Char :=
    match xs with
    | '-' :: r => (-1, r)
    | '+' :: r => (1, r)
    | _ => (1, xs)
  let ds := xs1.takeWhile Char.isDigit
  let rest1 := xs1.dropWhile Char.isDigit
  let (fs, rest2) : List Char × List Char :=
    match rest1 with
    | '.' :: r => (r.takeWhile Char.isDigit, r.dropWhile Char.isDigit)
    | _ => ([], rest1)
  if ds.isEmpty && fs.isEmpty then none
  else
    let mant : ℚ := (digitsToNat ds : ℚ) + (digitsToNat fs : ℚ) / (10 ^ fs.length)
    let expo : ℤ :=
      match rest2 with
      | 'e' :: r =>
          (match r with
           | '-' :: r2 =>
               let es := r2.takeWhile Char.isDigit
               if es.isEmpty then 0 else -(digitsToNat es : ℤ)
           | '+' :: r2 =>
               let es := r2.takeWhile Char.isDigit
               if es.isEmpty then 0 else (digitsToNat es : ℤ)
           | _ =>
               let es := r.takeWhile Char.isDigit
               if es.isEmpty then 0 else (digitsToNat es : ℤ))
      | 'E' :: r =>
          (match r with
           | '-' :: r2 =>
               let es := r2.takeWhile Char.isDigit
               if es.isEmpty then 0 else -(digitsToNat es : ℤ)
           | '+' :: r2 =>
               let es := r2.takeWhile Char.isDigit
               if es.isEmpty then 0 else (digitsToNat es : ℤ)
           | _ =>
               let es := r.takeWhile Char.isDigit
               if es.isEmpty then 0 else (digitsToNat es : ℤ))
      | _ => 0
    some (sgn * mant * (10 : ℚ) ^ expo)

/-- Convenience: string literal to character list. -/
def toL (s : String) : List Char := s.toList

/-! ### StatCore: the math core of `script.js` -/

namespace StatCore

/-- Character class `[\-0-9a-z\.\*]` of the `e^` rewriting regex in
`cleanForEval`. -/
def isCls (c : Char) : Bool :=
  c = '-' || c.isDigit || c.isLower || c = '.' || c = '*'

/-- Match of the capture group `(\(?[\-0-9a-z\.\*]+\)?)` of the `e^` regex
against a prefix of `rest`; returns the captured text and the remainder. -/
def matchGroup (rest : List Char) : Option (List Char × List Char) :=
  match rest with
  | '(' :: r2 =>
      let body := r2.takeWhile isCls
      if body.isEmpty then none
      else
        match r2.dropWhile isCls with
        | ')' :: r3 => some ('(' :: (body ++ [')']), r3)
        | after => some ('(' :: body, after)
  | _ =>
      let body := rest.takeWhile isCls
      if body.isEmpty then none
      else
        match rest.dropWhile isCls with
        | ')' :: r3 => some (rest.takeWhile isCls ++ [')'], r3)
        | after => some (rest.takeWhile isCls, after)

/-- Fuel-driven worker for the global replace
`s.replace(/e\^(\(?[\-0-9a-z\.\*]+\)?)/g, 'exp($1)')`. -/
def rx1Aux : ℕ → List Char → List Char
  | 0, xs => xs
  | fuel + 1, xs =>
      match xs with
      | 'e' :: '^' :: rest =>
          match matchGroup rest with
          | some (grp, rest') =>
              'e' :: 'x' :: 'p' :: '(' :: (grp ++ ')' :: rx1Aux fuel rest')
          | none => 'e' :: rx1Aux fuel ('^' :: rest)
      | c :: rest => c :: rx1Aux fuel rest
      | [] => []

/-- Step 1 of `cleanForEval`: rewrite `e^…` into `exp(…)`. -/
def rx1 (xs : List Char) : List Char := rx1Aux xs.length xs

/-- Step 2 of `cleanForEval`: the global replace
`s.replace(/([0-9])([a-z\(])/g, '$1*$2')` (implicit multiplication). -/
def rx2 : List Char → List Char
  | a :: b :: rest =>
      if a.isDigit && (b.isLower || b = '(') then a :: '*' :: b :: rx2 rest
      else a :: rx2 (b :: rest)
  | s => s

/-- `StatCore.cleanForEval`: lower-case, strip whitespace, rewrite `e^`
exponentials into `exp(...)` calls, and insert explicit multiplication
between a digit and a following letter or opening parenthesis. -/
def cleanForEval (s : List Char) : List Char := rx2 (rx1 (stripLower s))

/-- The two-step inequality normalisation at the top of `parseRange`:
lower-case, strip whitespace, collapse `<=` to `<` and `>=` to `>`. -/
def normalizeRange (s : List Char) : List Char :=
  replaceAll (toL ">=") (toL ">") (replaceAll (toL "<=") (toL "<") (stripLower s))

/-- Characters kept by the discrete-path filter `replace(/[^0-9.,-]/g, '')`. -/
def isDiscreteKeep (c : Char) : Bool :=
  c.isDigit || c = '.' || c = ',' || c = '-'

/-- `StatCore.parseRange`: classify a free-form domain string as a discrete
value list or a continuous (possibly unbounded) interval. -/
def parseRange (rangeStr : List Char) : RangeDescriptor :=
  let s := normalizeRange rangeStr
  if hasSubstr (toL "<") s || hasSubstr (toL ">") s || hasSubstr (toL "inf") s then
    if hasSubstr (toL "<x<") s then
      let parts := splitOnList (toL "<x<") s
      let p0 := parts.headD []
      let p1 := (parts.drop 1).headD []
      let mn : JSNum :=
        if hasSubstr (toL "inf") p0 && hasSubstr (toL "-") p0 then JSNum.ninf
        else match parseFloatList p0 with
             | some q => JSNum.fin q
             | none => JSNum.ninf
      let mx : JSNum :=
        if hasSubstr (toL "inf") p1 then JSNum.inf
        else match parseFloatList p1 with
             | some q => JSNum.fin q
             | none => JSNum.inf
      RangeDescriptor.continuous mn mx
    else if hasSubstr (toL "x>") s then
      let p1 := ((splitOnList (toL "x>") s).drop 1).headD []
      let mn : JSNum :=
        match parseFloatList p1 with
        | some q => JSNum.fin q
        | none => JSNum.ninf
      RangeDescriptor.continuous mn JSNum.inf
    else if hasSubstr (toL "x<") s then
      let p1 := ((splitOnList (toL "x<") s).drop 1).headD []
      let mx : JSNum :=
        match parseFloatList p1 with
        | some q => JSNum.fin q
        | none => JSNum.inf
      RangeDescriptor.continuous JSNum.ninf mx
    else if hasSubstr (toL "inf") s && hasSubstr (toL "0") s then
      RangeDescriptor.continuous (JSNum.fin 0) JSNum.inf
    else
      RangeDescriptor.continuous JSNum.ninf JSNum.inf
  else
    let cleanDiscrete := s.filter isDiscreteKeep
    if cleanDiscrete.isEmpty then RangeDescriptor.continuous JSNum.ninf JSNum.inf
    else
      let validValues := ((splitOnList (toL ",") cleanDiscrete).map parseFloatList).filterMap id
      if validValues.isEmpty then RangeDescriptor.continuous JSNum.ninf JSNum.inf
      else RangeDescriptor.discrete validValues

/-- `StatCore.integrate`: composite Simpson quadrature of the compiled
expression `f` from `lower` to `upper` with `steps` subintervals; an
unbounded lower (resp. upper) endpoint is clamped to `-100` (resp. `100`),
and a non-finite value at an interior sample point is replaced by `0`. -/
def integrate (f : JSNum → JSNum) (lower upper : JSNum) (steps : ℕ) : JSNum :=
  let effLow := if lower = JSNum.ninf then JSNum.fin (-100) else lower
  let effHigh := if upper = JSNum.inf then JSNum.fin 100 else upper
  let h := (effHigh - effLow) / JSNum.fin steps
  let init := f effLow + f effHigh
  let sum := (List.range' 1 (steps - 1)).foldl
    (fun acc (i : ℕ) =>
      let x := effLow + JSNum.fin (i : ℚ) * h
      let val := f x
      let val := if val.isFinite then val else JSNum.fin 0
      acc + JSNum.fin (if i % 2 = 0 then 2 else 4) * val)
    init
  (h / JSNum.fin 3) * sum

/-- `StatCore.summate`: sum of the compiled expression over the discrete
values (no non-finite coercion). -/
def summate (f : JSNum → JSNum) (values : List ℚ) : JSNum :=
  values.foldl (fun acc v => acc + f (JSNum.fin v)) (JSNum.fin 0)

/-- Result record of `StatCore.validateDistribution`. -/
structure ValidationResult where
  isValid : Bool
  total : JSNum
deriving DecidableEq

/-- `StatCore.validateDistribution`: total probability mass (sum for
discrete, integral over the range's own bounds for continuous) and the
`|total - 1| < 0.05` validity check. -/
def validateDistribution (f : JSNum → JSNum) (rangeObj : RangeDescriptor) :
    ValidationResult :=
  let total :=
    match rangeObj with
    | RangeDescriptor.discrete vs => summate f vs
    | RangeDescriptor.continuous mn mx => integrate f mn mx 10000
  { isValid := JSNum.lt (JSNum.abs (total - JSNum.fin 1)) (JSNum.fin (1/20))
    total := total }

/-- The family (and extracted parameters) of a `identifyDistribution` match.
The closed-form LaTeX strings of the source are determined by the family and
the extracted parameters and are not re-modelled. -/
inductive DistInfo where
  | poisson : DistInfo
  | binomialD (n : ℚ) : DistInfo
  | geometric : DistInfo
  | beta : DistInfo
  | exponential (lam : Option ℚ) : DistInfo
  | gammaD : DistInfo
  | normalD : DistInfo
  | uniform (mn mx : ℚ) : DistInfo
deriving DecidableEq

/-- `StatCore.identifyDistribution`: rule-ordered, first-match-wins
recognition on the lower-cased whitespace-stripped expression string.
`ev` abstracts `math.compile(...).evaluate` (used only by the Uniform rule);
an evaluation failure is modelled by `ev` returning `NaN`. -/
def identifyDistribution (ev : List Char → ℚ → JSNum) (funcStr : List Char)
    (range : RangeDescriptor) : Option DistInfo :=
  let f := stripLower funcStr
  let has := fun (pat : List Char) => hasSubstr pat f
  match range with
  | RangeDescriptor.discrete values =>
      if values.length > 10 && values.head? = some 0
          && (has (toL "!") || has (toL "factorial"))
          && (has (toL "e^") || has (toL "exp")) then
        some DistInfo.poisson
      else if values.length > 1 && values.head? = some 0 && has (toL "^")
          && (has (toL "-0") || has (toL "-x")) then
        some (DistInfo.binomialD ((values.getLast?).getD 0))
      else if values.head? = some 1 && has (toL "^")
          && (has (toL "x-1") || has (toL "x")) then
        some DistInfo.geometric
      else none
  | RangeDescriptor.continuous mn mx =>
      if mn = JSNum.fin 0 && mx = JSNum.fin 1 && has (toL "x^")
          && has (toL "(1-x)") then
        some DistInfo.beta
      else if mn = JSNum.fin 0 && mx = JSNum.inf && has (toL "e^")
          && !has (toL "x*e") && !has (toL "x^") then
        let parts := splitOnList (toL "e^") f
        let pre := (parts.headD []).filter (fun c => c ≠ '*')
        let pre := if pre.isEmpty then toL "1" else pre
        some (DistInfo.exponential (parseFloatList pre))
      else if mn = JSNum.fin 0 && mx = JSNum.inf
          && (has (toL "x^") || has (toL "x*"))
          && (has (toL "e^") || has (toL "exp")) then
        some DistInfo.gammaD
      else if mn = JSNum.ninf && mx = JSNum.inf && has (toL "e^")
          && has (toL "x^2") then
        some DistInfo.normalD
      else
        match mn, mx with
        | JSNum.fin a, JSNum.fin b =>
            let height := JSNum.fin 1 / JSNum.fin (b - a)
            let mid := (a + b) / 2
            let val := ev (cleanForEval funcStr) mid
            if JSNum.lt (JSNum.abs (val - height)) (JSNum.fin (1/100)) then
              some (DistInfo.uniform a b)
            else none
        | _, _ => none

/-- `StatCore.factorial` (`n <= 1 ? 1 : n * factorial(n-1)`). -/
def factorial : ℕ → ℚ
  | 0 => 1
  | 1 => 1
  | n + 2 => (n + 2 : ℚ) * factorial (n + 1)

/-- `StatCore.nCr` (the `r < 0` guard of the source cannot fire for natural
`r` and is subsumed by the `r > n` guard). -/
def nCr (n r : ℕ) : ℚ :=
  if r > n then 0 else factorial n / (factorial r * factorial (n - r))

/-- `StatCore.inverseNormal` (Acklam-style rational approximation), with
`Math.log` and `Math.sqrt` abstracted as `logf` and `sqrtf`. -/
def inverseNormal (logf sqrtf : JSNum → JSNum) (p : JSNum) : JSNum :=
  if JSNum.le p (JSNum.fin 0) then JSNum.ninf
  else if JSNum.le (JSNum.fin 1) p then JSNum.inf
  else
    let q := if JSNum.lt p (JSNum.fin (1/2)) then p else JSNum.fin 1 - p
    let t := sqrtf (JSNum.fin (-2) * logf q)
    let x := t -
      ((JSNum.fin 0.010328 * t + JSNum.fin 0.802853) * t + JSNum.fin 2.515517) /
      (((JSNum.fin 0.001308 * t + JSNum.fin 0.189269) * t + JSNum.fin 1.432788) * t
        + JSNum.fin 1)
    if JSNum.lt p (JSNum.fin (1/2)) then -x else x

end StatCore

/-! ### Modules: the Universal Analyzer and the Binomial standard model -/

namespace Modules

/-- Moment data computed by `Modules.custom_uni.calculate` (section
"2. MATH CALCULATIONS"): validation result, the two (possibly renormalised)
moments, and the variance. -/
structure MomentData where
  validation : StatCore.ValidationResult
  mean : JSNum
  secMom : JSNum
  variance : JSNum

/-- The raw (pre-renormalisation) first moment of `calculate`: the sum or
integral of `x * (cleanF)`. -/
def rawMean (f : JSNum → JSNum) (range : RangeDescriptor) : JSNum :=
  match range with
  | RangeDescriptor.discrete vs => StatCore.summate (fun x => x * f x) vs
  | RangeDescriptor.continuous mn mx =>
      StatCore.integrate (fun x => x * f x) mn mx 10000

/-- The raw (pre-renormalisation) second moment of `calculate`: the sum or
integral of `x^2 * (cleanF)`. -/
def rawSecMom (f : JSNum → JSNum) (range : RangeDescriptor) : JSNum :=
  match range with
  | RangeDescriptor.discrete vs => StatCore.summate (fun x => x * x * f x) vs
  | RangeDescriptor.continuous mn mx =>
      StatCore.integrate (fun x => x * x * f x) mn mx 10000

/-- The numeric part of `Modules.custom_uni.calculate`: validation, raw
moments of `x*(f)` and `x^2*(f)`, conditional renormalisation
(`!validation.isValid && validation.total > 0`), and the variance
`secMom - mean^2`.  `f` is the compiled semantics of the user expression;
textual composition `x * (cleanF)` is modelled by semantic composition. -/
def calculateMoments (f : JSNum → JSNum) (range : RangeDescriptor) : MomentData :=
  let validation := StatCore.validateDistribution f range
  let mean0 :=
    match range with
    | RangeDescriptor.discrete vs => StatCore.summate (fun x => x * f x) vs
    | RangeDescriptor.continuous mn mx =>
        StatCore.integrate (fun x => x * f x) mn mx 10000
  let secMom0 :=
    match range with
    | RangeDescriptor.discrete vs => StatCore.summate (fun x => x * x * f x) vs
    | RangeDescriptor.continuous mn mx =>
        StatCore.integrate (fun x => x * x * f x) mn mx 10000
  let renorm := !validation.isValid && JSNum.lt (JSNum.fin 0) validation.total
  let mean := if renorm then mean0 / validation.total else mean0
  let secMom := if renorm then secMom0 / validation.total else secMom0
  { validation := validation
    mean := mean
    secMom := secMom
    variance := secMom - mean * mean }

/-- The control path taken by `Modules.custom_uni.calculate`: either the
early-return "Discrete Error" warning, or the numeric analysis (the only
other path — there is no other precondition check before the pipeline). -/
inductive CalcPath where
  | discreteError : CalcPath
  | numericAnalysis (distInfo : Option StatCore.DistInfo) (m : MomentData) : CalcPath

/-- Is the path the early-return discrete error? -/
def CalcPath.isError : CalcPath → Bool
  | CalcPath.discreteError => true
  | CalcPath.numericAnalysis _ _ => false

/-- `Modules.custom_uni.calculate`, reduced to its computational skeleton:
parse the range, early-return on an empty discrete value list, otherwise
run validation, recognition and the moment computations.  `ev` abstracts the
`math.js` evaluator for `identifyDistribution`'s Uniform rule, `f` is the
compiled semantics of the user expression. -/
def calculate (ev : List Char → ℚ → JSNum) (funcStr : List Char)
    (f : JSNum → JSNum) (rangeStr : List Char) : CalcPath :=
  let range := StatCore.parseRange rangeStr
  match range with
  | RangeDescriptor.discrete vs =>
      if vs.isEmpty then CalcPath.discreteError
      else CalcPath.numericAnalysis
        (StatCore.identifyDistribution ev funcStr (RangeDescriptor.discrete vs))
        (calculateMoments f (RangeDescriptor.discrete vs))
  | RangeDescriptor.continuous mn mx =>
      CalcPath.numericAnalysis
        (StatCore.identifyDistribution ev funcStr (RangeDescriptor.continuous mn mx))
        (calculateMoments f (RangeDescriptor.continuous mn mx))

/-- The Binomial PMF of `Modules.bin` (`(val<0||val>n) ? 0 :
nCr(n,val) * p^val * (1-p)^(n-val)`). -/
def binPmf (n : ℕ) (p : ℚ) (val : ℤ) : ℚ :=
  if val < 0 ∨ val > (n : ℤ) then 0
  else StatCore.nCr n val.toNat * p ^ val.toNat * (1 - p) ^ (n - val.toNat)

/-- The Binomial CDF of `Modules.bin` (`for(i=0; i<=k; i++) cdfVal += pmf(i)`). -/
def binCdf (n : ℕ) (p : ℚ) (k : ℕ) : ℚ :=
  ((List.range (k + 1)).map (fun i => binPmf n p i)).sum

end Modules

/-! ### Auxiliary predicates for the range-parser and normaliser proofs -/

/-- A valid numeric token of the discrete range grammar: it consists only of
digits, dots and minus signs (so the discrete-path character filter and the
normaliser leave it unchanged and it contains no comma or inequality/infinity
marker), and `parseFloat` succeeds on it (the source's `!isNaN` filter
keeps it). -/
def isNumTok (t : List Char) : Bool :=
  t.all (fun c => c.isDigit || c = '.' || c = '-') && (parseFloatList t).isSome

/-- The numeric value of a token (the `parseFloat` result). -/
def tokVal (t : List Char) : ℚ := (parseFloatList t).getD 0

/-- A character left fixed by `stripLower` (already lower-case, and not
whitespace). -/
def cleanChar (c : Char) : Bool := jsLower c = c && !isSpaceJS c

/-- No position of the string matches the digit-letter/paren pattern of the
implicit-multiplication regex of `cleanForEval`. -/
def noPairB : List Char → Bool
  | a :: b :: r =>
      !(a.isDigit && (b.isLower || b = '(')) && noPairB (b :: r)
  | _ => true

/-- No position of the string starts a match of the `e^` regex of
`cleanForEval` (every `e^` occurrence, if any, has a non-matching tail). -/
def siteFreeB : List Char → Bool
  | 'e' :: '^' :: r => (StatCore.matchGroup r).isNone && siteFreeB ('^' :: r)
  | _ :: r => siteFreeB r
  | [] => true

/-! ### Shared lemmas about `JSNum` -/

attribute [local semireducible] Rat.add Rat.sub Rat.mul Rat.inv Rat.ofScientific

namespace JSNum

theorem add_def (a b : JSNum) : a + b = add a b := rfl

theorem sub_def (a b : JSNum) : a - b = sub a b := rfl

theorem mul_def (a b : JSNum) : a * b = mul a b := rfl

theorem div_def (a b : JSNum) : a / b = div a b := rfl

theorem neg_def (a : JSNum) : -a = neg a := rfl

theorem isFinite_iff (v : JSNum) : v.isFinite = true ↔ ∃ q : ℚ, v = fin q := by
  cases v <;> simp [isFinite]

theorem fin_add_fin (a b : ℚ) : fin a + fin b = fin (a + b) := rfl

theorem fin_mul_fin (a b : ℚ) : fin a * fin b = fin (a * b) := rfl

end JSNum

/-- The validity test of `validateDistribution` holds exactly when the total
is a finite value within `0.05` of `1` (in particular it is false for
`NaN` and the infinities, by JavaScript comparison semantics). -/
theorem lt_abs_sub_one_iff (t : JSNum) :
    JSNum.lt (JSNum.abs (t - JSNum.fin 1)) (JSNum.fin (1/20)) = true ↔
      ∃ q : ℚ, t = JSNum.fin q ∧ |q - 1| < 1/20 := by
  cases t with
  | fin a =>
      simp only [JSNum.sub_def, JSNum.sub, JSNum.add, JSNum.neg, JSNum.abs, JSNum.lt]
      rw [show a + -1 = a - 1 from (sub_eq_add_neg a 1).symm]
      constructor
      · intro h
        exact ⟨a, rfl, of_decide_eq_true h⟩
      · rintro ⟨q, hq, h⟩
        cases hq
        exact decide_eq_true h
  | inf => simp [JSNum.sub_def, JSNum.sub, JSNum.add, JSNum.neg, JSNum.abs, JSNum.lt]
  | ninf => simp [JSNum.sub_def, JSNum.sub, JSNum.add, JSNum.neg, JSNum.abs, JSNum.lt]
  | nan => simp [JSNum.sub_def, JSNum.sub, JSNum.add, JSNum.neg, JSNum.abs, JSNum.lt]

/-! ## Claim C9: the Binomial model at n = 10, p = 0.5, k = 5 -/

/-- C9 (confirmed).  The Binomial standard-distribution model with n = 10,
p = 0.5 evaluated at k = 5 returns PMF `C(10,5) * 0.5^10` (= 63/256
≈ 0.24609) and CDF(5) = sum of the PMF from 0 to 5 (= 319/512 ≈ 0.62305). -/
theorem binomial_n10_p_half_k5 :
    Modules.binPmf 10 (1/2) 5 = StatCore.nCr 10 5 * (1/2) ^ 10 ∧
    Modules.binPmf 10 (1/2) 5 = 63/256 ∧
    Modules.binCdf 10 (1/2) 5 = ((List.range 6).map (fun i => Modules.binPmf 10 (1/2) i)).sum ∧
    Modules.binCdf 10 (1/2) 5 = 319/512 ∧
    |Modules.binPmf 10 (1/2) 5 - 0.24609| < 1/100000 ∧
    |Modules.binCdf 10 (1/2) 5 - 0.62305| < 1/100000 := by
  refine ⟨by decide, by decide, rfl, by decide, by decide, by decide⟩

/-! ## Claim C1: recognition of the exponential density -/

/-- C1, counterexample (claim is false as stated).  On the
post-normalization expression string `2*exp(-2*x)` over `[0, ∞)` the
recogniser returns no match at all: the Exponential rule tests for the
substring `e^`, which the normalised `exp(...)` form no longer contains
(and the Gamma, Normal and Uniform rules do not fire either). -/
theorem identifyDistribution_post_normalization_no_match :
    StatCore.identifyDistribution (fun _ _ => JSNum.nan) (toL "2*exp(-2*x)")
      (RangeDescriptor.continuous (JSNum.fin 0) JSNum.inf) = none := by
  decide

/-- C1 as amended (proved).  The recogniser receives the raw user expression
(only lower-cased and whitespace-stripped, not `cleanForEval`-normalised):
on the raw input `2e^-2x` over `[0, ∞)` it returns the Exponential match
with extracted rate `2`, for any evaluator oracle. -/
theorem identifyDistribution_raw_exponential_rate_two
    (ev : List Char → ℚ → JSNum) :
    StatCore.identifyDistribution ev (toL "2e^-2x")
      (RangeDescriptor.continuous (JSNum.fin 0) JSNum.inf)
      = some (StatCore.DistInfo.exponential (some 2)) := by
  rfl

/-! ## Claim C7: the distribution validator -/

/-- C7 (confirmed).  For every expression and range descriptor,
`validateDistribution` computes the total mass as the discrete sum over the
range's values when the range is discrete, and as the integral over the
range's own min and max (with the default 10000 steps) when the range is
continuous; `isValid` holds exactly when the total is a finite value `q`
with `|q - 1| < 0.05`. -/
theorem validateDistribution_spec (f : JSNum → JSNum) :
    (∀ vs, (StatCore.validateDistribution f (RangeDescriptor.discrete vs)).total
        = StatCore.summate f vs) ∧
    (∀ mn mx, (StatCore.validateDistribution f (RangeDescriptor.continuous mn mx)).total
        = StatCore.integrate f mn mx 10000) ∧
    (∀ range, (StatCore.validateDistribution f range).isValid = true ↔
        ∃ q : ℚ, (StatCore.validateDistribution f range).total = JSNum.fin q
          ∧ |q - 1| < 1/20) := by
  refine ⟨fun vs => rfl, fun mn mx => rfl, fun range => ?_⟩
  exact lt_abs_sub_one_iff _

/-! ## Claim C10: boundary behaviour of `inverseNormal` -/

/-- C10 (confirmed).  For every probability input `p` (by JavaScript
comparison semantics): if `p <= 0` holds the result is `-Infinity`; if
`p <= 0` fails and `p >= 1` holds the result is `+Infinity`; and a finite
result is only ever returned when `0 < p` and `p < 1` both hold (so the
boundary inputs never produce `NaN` or a raised error).  `logf` and `sqrtf`
abstract `Math.log`/`Math.sqrt`; the only fact used about them is that they
map `NaN` to `NaN`, as the JavaScript functions do. -/
theorem inverseNormal_boundaries (logf sqrtf : JSNum → JSNum)
    (hl : logf JSNum.nan = JSNum.nan) (hs : sqrtf JSNum.nan = JSNum.nan)
    (p : JSNum) :
    (JSNum.le p (JSNum.fin 0) = true →
      StatCore.inverseNormal logf sqrtf p = JSNum.ninf) ∧
    (JSNum.le p (JSNum.fin 0) = false → JSNum.le (JSNum.fin 1) p = true →
      StatCore.inverseNormal logf sqrtf p = JSNum.inf) ∧
    ((StatCore.inverseNormal logf sqrtf p).isFinite = true →
      JSNum.lt (JSNum.fin 0) p = true ∧ JSNum.lt p (JSNum.fin 1) = true) := by
  cases p with
  | fin a =>
      by_cases h0 : a ≤ 0
      · refine ⟨fun _ => by simp [StatCore.inverseNormal, JSNum.le, h0], ?_, ?_⟩
        · intro hle
          simp [JSNum.le, h0] at hle
        · intro hfin
          simp [StatCore.inverseNormal, JSNum.le, h0, JSNum.isFinite] at hfin
      · by_cases h1 : 1 ≤ a
        · refine ⟨?_, fun _ _ => by simp [StatCore.inverseNormal, JSNum.le, h0, h1], ?_⟩
          · intro hle
            simp [JSNum.le, h0] at hle
          · intro hfin
            simp [StatCore.inverseNormal, JSNum.le, h0, h1, JSNum.isFinite] at hfin
        · refine ⟨?_, ?_, fun _ => ?_⟩
          · intro hle
            simp [JSNum.le, h0] at hle
          · intro _ hge
            simp [JSNum.le, h1] at hge
          · constructor <;> simp [JSNum.lt] <;> [linarith; linarith]
  | inf =>
      refine ⟨?_, fun _ _ => by simp [StatCore.inverseNormal, JSNum.le], ?_⟩
      · intro hle
        simp [JSNum.le] at hle
      · intro hfin
        simp [StatCore.inverseNormal, JSNum.le, JSNum.isFinite] at hfin
  | ninf =>
      refine ⟨fun _ => by simp [StatCore.inverseNormal, JSNum.le], ?_, ?_⟩
      · intro hle
        simp [JSNum.le] at hle
      · intro hfin
        simp [StatCore.inverseNormal, JSNum.le, JSNum.isFinite] at hfin
  | nan =>
      refine ⟨?_, ?_, ?_⟩
      · intro hle
        simp [JSNum.le] at hle
      · intro _ hge
        simp [JSNum.le] at hge
      · intro hfin
        have key : StatCore.inverseNormal logf sqrtf JSNum.nan = JSNum.nan := by
          unfold StatCore.inverseNormal
          rw [if_neg (by simp [JSNum.le]), if_neg (by simp [JSNum.le])]
          have hlt : JSNum.lt JSNum.nan (JSNum.fin (1/2)) = false := rfl
          simp only [hlt, Bool.false_eq_true, if_false,
            show JSNum.fin 1 - JSNum.nan = JSNum.nan from rfl, hl,
            show JSNum.fin (-2) * JSNum.nan = JSNum.nan from rfl, hs]
          rfl
        rw [key] at hfin
        simp [JSNum.isFinite] at hfin

/-- Witness for C10, instantiating the theorem at `Math.log`/`Math.sqrt`
models that fix `NaN`, and at the boundary and interior inputs `0`, `2`
and `1/2`. -/
theorem inverseNormal_boundaries_witness :
    StatCore.inverseNormal (fun x => if x = JSNum.nan then JSNum.nan else JSNum.fin 0)
      (fun x => if x = JSNum.nan then JSNum.nan else JSNum.fin 0) (JSNum.fin 0)
      = JSNum.ninf ∧
    StatCore.inverseNormal (fun x => if x = JSNum.nan then JSNum.nan else JSNum.fin 0)
      (fun x => if x = JSNum.nan then JSNum.nan else JSNum.fin 0) (JSNum.fin 2)
      = JSNum.inf ∧
    JSNum.lt (JSNum.fin 0) (JSNum.fin (1/2)) = true ∧
    JSNum.lt (JSNum.fin (1/2)) (JSNum.fin 1) = true := by
  have h := inverseNormal_boundaries
    (fun x => if x = JSNum.nan then JSNum.nan else JSNum.fin 0)
    (fun x => if x = JSNum.nan then JSNum.nan else JSNum.fin 0) rfl rfl
  refine ⟨(h (JSNum.fin 0)).1 (by decide),
    (h (JSNum.fin 2)).2.1 (by decide) (by decide),
    (h (JSNum.fin (1/2))).2.2 ?_⟩
  decide

/-! ## Claim C2: renormalisation of the raw moments -/

/-- C2, counterexample (claim is false as stated).  The renormalisation *is*
guarded: with the compiled expression `f(x) = x` on the discrete range
`{-1, 1}` the total mass is `0` and `isValid` is false, yet the raw first
moment `2` is returned untouched (finite — neither divided by the zero mass
nor `NaN`), because the source guards the division with
`validation.total > 0`. -/
theorem calculateMoments_zero_mass_not_divided :
    (Modules.calculateMoments (fun x => x) (RangeDescriptor.discrete [-1, 1])).validation.total
      = JSNum.fin 0 ∧
    (Modules.calculateMoments (fun x => x) (RangeDescriptor.discrete [-1, 1])).validation.isValid
      = false ∧
    (Modules.calculateMoments (fun x => x) (RangeDescriptor.discrete [-1, 1])).mean
      = JSNum.fin 2 ∧
    (Modules.calculateMoments (fun x => x) (RangeDescriptor.discrete [-1, 1])).mean.isFinite
      = true := by
  refine ⟨by decide, by decide, by decide, by decide⟩

/-- C2 as amended (proved).  Each raw moment is divided by
`validation.total` only when `validation.isValid` is false *and*
`validation.total > 0` holds (JavaScript comparison); whenever
`validation.total > 0` fails — in particular for a zero, negative or `NaN`
total mass — the raw moments are returned without any division. -/
theorem calculateMoments_renormalization_guarded (f : JSNum → JSNum)
    (range : RangeDescriptor) :
    ((StatCore.validateDistribution f range).isValid = false →
      JSNum.lt (JSNum.fin 0) (StatCore.validateDistribution f range).total = true →
      (Modules.calculateMoments f range).mean
          = Modules.rawMean f range / (StatCore.validateDistribution f range).total ∧
      (Modules.calculateMoments f range).secMom
          = Modules.rawSecMom f range / (StatCore.validateDistribution f range).total) ∧
    (JSNum.lt (JSNum.fin 0) (StatCore.validateDistribution f range).total = false →
      (Modules.calculateMoments f range).mean = Modules.rawMean f range ∧
      (Modules.calculateMoments f range).secMom = Modules.rawSecMom f range) := by
  constructor
  · intro hvalid hpos
    cases range <;>
      simp [Modules.calculateMoments, Modules.rawMean, Modules.rawSecMom, hvalid, hpos]
  · intro hpos
    cases range <;>
      simp [Modules.calculateMoments, Modules.rawMean, Modules.rawSecMom, hpos]

/-- Witness for C2's amended theorem: the renormalising branch at
`f(x) = 1` on `{0, 1}` (total mass `2 > 0`, invalid), and the guarded
branch at `f(x) = x` on `{-1, 1}` (total mass `0`, not `> 0`). -/
theorem calculateMoments_renormalization_guarded_witness :
    ((Modules.calculateMoments (fun _ => JSNum.fin 1) (RangeDescriptor.discrete [0, 1])).mean
        = Modules.rawMean (fun _ => JSNum.fin 1) (RangeDescriptor.discrete [0, 1])
          / (StatCore.validateDistribution (fun _ => JSNum.fin 1)
              (RangeDescriptor.discrete [0, 1])).total) ∧
    ((Modules.calculateMoments (fun x => x) (RangeDescriptor.discrete [-1, 1])).mean
        = Modules.rawMean (fun x => x) (RangeDescriptor.discrete [-1, 1])) := by
  constructor
  · exact ((calculateMoments_renormalization_guarded (fun _ => JSNum.fin 1)
      (RangeDescriptor.discrete [0, 1])).1 (by decide) (by decide)).1
  · exact ((calculateMoments_renormalization_guarded (fun x => x)
      (RangeDescriptor.discrete [-1, 1])).2 (by decide)).1

/-! ## Claim C3: coercion of non-finite sample values -/

/-- C3, counterexample (claim is false as stated).  A non-finite value *is*
propagated into the returned total from the two quadrature endpoint samples
and from every `summate` sample: with an expression evaluating to `Infinity`
at the lower endpoint `0` (and `0` elsewhere), `integrate` over `[0,1]`
returns `Infinity`; and `summate` of an expression evaluating to `Infinity`
returns `Infinity`.  Only interior quadrature samples are coerced to zero. -/
theorem nonfinite_sample_propagates :
    StatCore.integrate (fun x => if x = JSNum.fin 0 then JSNum.inf else JSNum.fin 0)
      (JSNum.fin 0) (JSNum.fin 1) 2 = JSNum.inf ∧
    StatCore.summate (fun _ => JSNum.inf) [0] = JSNum.inf := by
  refine ⟨by decide, by decide⟩

/-- Any fold preserving finiteness step-wise preserves it overall. -/
theorem foldl_isFinite (step : JSNum → ℕ → JSNum)
    (hstep : ∀ acc i, acc.isFinite = true → (step acc i).isFinite = true) :
    ∀ (l : List ℕ) (init : JSNum), init.isFinite = true →
      (l.foldl step init).isFinite = true := by
  intro l
  induction l with
  | nil => exact fun init h => h
  | cons a l ih => exact fun init h => ih (step init a) (hstep init a h)

/-- C3 as amended (proved).  Non-finite evaluations are coerced to zero only
at the *interior* sample points of `integrate`; consequently, whenever the
two endpoint evaluations are finite (finite bounds, at least one step), no
non-finite sample value can reach the returned total: the result is finite.
(The endpoint samples of `integrate` and the samples of `summate` are *not*
coerced and do propagate, per the counterexample.) -/
theorem integrate_interior_coercion_finite (f : JSNum → JSNum) (lo hi : ℚ)
    (steps : ℕ) (hsteps : 1 ≤ steps)
    (hlo : (f (JSNum.fin lo)).isFinite = true)
    (hhi : (f (JSNum.fin hi)).isFinite = true) :
    (StatCore.integrate f (JSNum.fin lo) (JSNum.fin hi) steps).isFinite = true := by
  obtain ⟨a, ha⟩ := (JSNum.isFinite_iff _).mp hlo
  obtain ⟨b, hb⟩ := (JSNum.isFinite_iff _).mp hhi
  have hstepsQ : (steps : ℚ) ≠ 0 := Nat.cast_ne_zero.mpr (by omega)
  unfold StatCore.integrate
  simp only [show (JSNum.fin lo = JSNum.ninf) = False by simp, if_false,
    show (JSNum.fin hi = JSNum.inf) = False by simp]
  have hh : (JSNum.fin hi - JSNum.fin lo) / JSNum.fin (steps : ℚ)
      = JSNum.fin ((hi - lo) / steps) := by
    simp only [JSNum.sub_def, JSNum.sub, JSNum.neg, JSNum.add, JSNum.div_def, JSNum.div,
      if_neg hstepsQ]
    rw [sub_eq_add_neg]
  rw [hh]
  have hsum : ((List.range' 1 (steps - 1)).foldl
      (fun acc (i : ℕ) =>
        acc + JSNum.fin (if i % 2 = 0 then 2 else 4) *
          (if (f (JSNum.fin lo + JSNum.fin (i : ℚ) * JSNum.fin ((hi - lo) / steps))).isFinite
            then f (JSNum.fin lo + JSNum.fin (i : ℚ) * JSNum.fin ((hi - lo) / steps))
            else JSNum.fin 0))
      (f (JSNum.fin lo) + f (JSNum.fin hi))).isFinite = true := by
    apply foldl_isFinite
    · intro acc i hacc
      obtain ⟨q, hq⟩ := (JSNum.isFinite_iff _).mp hacc
      cases hfx : f (JSNum.fin lo + JSNum.fin (i : ℚ) * JSNum.fin ((hi - lo) / steps)) <;>
        simp [hq, hfx, JSNum.add_def, JSNum.add, JSNum.mul_def, JSNum.mul,
          JSNum.isFinite]
    · rw [ha, hb]
      rfl
  obtain ⟨s, hs⟩ := (JSNum.isFinite_iff _).mp hsum
  rw [hs]
  have h3 : JSNum.fin ((hi - lo) / steps) / JSNum.fin 3 = JSNum.fin ((hi - lo) / steps / 3) := by
    simp only [JSNum.div_def, JSNum.div]
    rw [if_neg (by norm_num)]
  rw [h3]
  rfl

/-- Witness for C3's amended theorem at the everywhere-zero expression over
`[0, 1]` with one step. -/
theorem integrate_interior_coercion_finite_witness :
    (StatCore.integrate (fun _ => JSNum.fin 0) (JSNum.fin 0) (JSNum.fin 1) 1).isFinite
      = true :=
  integrate_interior_coercion_finite (fun _ => JSNum.fin 0) 0 1 1 (by decide)
    (by decide) (by decide)

/-! ## Claim C4: the alleged domain-mismatch precondition -/

/-- C4, counterexample (claim is false as stated).  The expression `e^-x`
contains the exponential-decay marker and the range `x<5` parses to the
continuous range `(-Infinity, 5]`-style descriptor with lower bound
`-Infinity`; yet `calculate` takes the numeric-analysis path, not an error
path: no domain-mismatch precondition check exists in the source (the only
early-return check is the empty-discrete-values check). -/
theorem calculate_exponential_unbounded_below_runs_pipeline :
    hasSubstr (toL "e^") (toL "e^-x") = true ∧
    StatCore.parseRange (toL "x<5") = RangeDescriptor.continuous JSNum.ninf (JSNum.fin 5) ∧
    Modules.CalcPath.isError
      (Modules.calculate (fun _ _ => JSNum.nan) (toL "e^-x") (fun _ => JSNum.nan)
        (toL "x<5")) = false := by
  refine ⟨by decide, by decide, by decide⟩

/-- C4 as amended (proved).  There is no explicit precondition check on the
expression before the numerical pipeline: for *every* expression string
(in particular one containing an exponential-decay marker) and every range
string that parses to a continuous descriptor — including descriptors
unbounded below — `calculate` runs the full numeric analysis (validation,
recognition, moments); the divergence is instead absorbed inside
`integrate`, which clamps `-Infinity` to `-100` and zeroes non-finite
interior samples. -/
theorem calculate_continuous_always_numeric (ev : List Char → ℚ → JSNum)
    (funcStr : List Char) (f : JSNum → JSNum) (rangeStr : List Char)
    (mn mx : JSNum)
    (h : StatCore.parseRange rangeStr = RangeDescriptor.continuous mn mx) :
    Modules.calculate ev funcStr f rangeStr
      = Modules.CalcPath.numericAnalysis
          (StatCore.identifyDistribution ev funcStr (RangeDescriptor.continuous mn mx))
          (Modules.calculateMoments f (RangeDescriptor.continuous mn mx)) := by
  unfold Modules.calculate
  rw [h]

/-- Witness for C4's amended theorem at the inputs of the counterexample. -/
theorem calculate_continuous_always_numeric_witness :
    Modules.calculate (fun _ _ => JSNum.nan) (toL "e^-x") (fun _ => JSNum.nan)
        (toL "x<5")
      = Modules.CalcPath.numericAnalysis
          (StatCore.identifyDistribution (fun _ _ => JSNum.nan) (toL "e^-x")
            (RangeDescriptor.continuous JSNum.ninf (JSNum.fin 5)))
          (Modules.calculateMoments (fun _ => JSNum.nan)
            (RangeDescriptor.continuous JSNum.ninf (JSNum.fin 5))) :=
  calculate_continuous_always_numeric _ _ _ _ _ _ (by decide)

/-! ## Claim C5: the min ≤ max invariant of parseRange -/

/-- C5, counterexample (claim is false as stated).  `parseRange` performs no
ordering check on the two-sided form: the input `5<x<2` yields the
Continuous descriptor with min = 5 and max = 2, and `5 ≤ 2` fails. -/
theorem parseRange_reversed_bounds :
    StatCore.parseRange (toL "5<x<2")
      = RangeDescriptor.continuous (JSNum.fin 5) (JSNum.fin 2) ∧
    ¬ ((5 : ℚ) ≤ 2) := by
  refine ⟨by decide, by norm_num⟩

/-- C5 as amended (proved).  `parseRange` does not enforce `min ≤ max`:
the two-sided branch returns the parsed bounds exactly as written (so a
reversed input such as `5<x<2` violates the invariant).  What does hold for
every input string is that a Continuous result with *both* bounds finite can
only arise from the two-sided branch — the normalised input must contain
`<x<`; every other branch leaves at least one bound infinite (or returns a
Discrete descriptor). -/
theorem parseRange_bothFinite_from_twoSided (s : List Char) (a b : ℚ)
    (h : StatCore.parseRange s
        = RangeDescriptor.continuous (JSNum.fin a) (JSNum.fin b)) :
    hasSubstr (toL "<x<") (StatCore.normalizeRange s) = true := by
  unfold StatCore.parseRange at h
  by_cases h1 : (hasSubstr (toL "<") (StatCore.normalizeRange s)
      || hasSubstr (toL ">") (StatCore.normalizeRange s)
      || hasSubstr (toL "inf") (StatCore.normalizeRange s)) = true
  · rw [if_pos h1] at h
    by_cases h2 : hasSubstr (toL "<x<") (StatCore.normalizeRange s) = true
    · exact h2
    · rw [if_neg h2] at h
      by_cases h3 : hasSubstr (toL "x>") (StatCore.normalizeRange s) = true
      · rw [if_pos h3] at h
        exact absurd (congrArg (fun r => r = RangeDescriptor.continuous
          (JSNum.fin a) (JSNum.fin b)) h) (by simp)
      · rw [if_neg h3] at h
        by_cases h4 : hasSubstr (toL "x<") (StatCore.normalizeRange s) = true
        · rw [if_pos h4] at h
          simp at h
        · rw [if_neg h4] at h
          by_cases h5 : (hasSubstr (toL "inf") (StatCore.normalizeRange s)
              && hasSubstr (toL "0") (StatCore.normalizeRange s)) = true
          · rw [if_pos h5] at h
            simp at h
          · rw [if_neg h5] at h
            simp at h
  · rw [if_neg h1] at h
    by_cases h6 : ((StatCore.normalizeRange s).filter StatCore.isDiscreteKeep).isEmpty = true
    · rw [if_pos h6] at h
      simp at h
    · rw [if_neg h6] at h
      by_cases h7 : ((((splitOnList (toL ",")
            ((StatCore.normalizeRange s).filter StatCore.isDiscreteKeep))).map
              parseFloatList).filterMap id).isEmpty = true
      · rw [if_pos h7] at h
        simp at h
      · rw [if_neg h7] at h
        simp at h

/-- Witness for C5's amended theorem at the well-ordered input `0<x<5`. -/
theorem parseRange_bothFinite_from_twoSided_witness :
    hasSubstr (toL "<x<") (StatCore.normalizeRange (toL "0<x<5")) = true :=
  parseRange_bothFinite_from_twoSided (toL "0<x<5") 0 5 (by decide)

/-! ## Claim C8: the discrete path of parseRange -/

theorem hasSubstr_false_of_head_notMem (c : Char) (sep' : List Char) :
    ∀ s : List Char, c ∉ s → hasSubstr (c :: sep') s = false := by
  intro s
  induction s with
  | nil => intro _; rfl
  | cons x xs ih =>
      intro hmem
      have hx : ¬ (c = x) := fun h => hmem (h ▸ List.mem_cons_self x xs)
      have hxs : c ∉ xs := fun h => hmem (List.mem_cons_of_mem x h)
      simp only [hasSubstr, findSub, List.isPrefixOf]
      rw [if_neg (by simp [hx])]
      have := ih hxs
      simp only [hasSubstr] at this
      simp [this]

theorem findSub_none_of_hasSubstr_false (sep s : List Char)
    (h : hasSubstr sep s = false) : findSub sep s = none := by
  unfold hasSubstr at h
  exact Option.not_isSome_iff_eq_none.mp (by simp [h])

theorem splitOnListAux_of_none (sep : List Char) (fuel : ℕ) (s : List Char)
    (h : findSub sep s = none) : splitOnListAux sep fuel s = [s] := by
  cases fuel with
  | zero => rfl
  | succ n => simp [splitOnListAux, h]

theorem splitOnList_of_no_occurrence (sep s : List Char)
    (h : hasSubstr sep s = false) : splitOnList sep s = [s] := by
  unfold splitOnList
  split
  · rfl
  · exact splitOnListAux_of_none sep s.length s (findSub_none_of_hasSubstr_false sep s h)

theorem replaceAll_of_no_occurrence (sep tgt s : List Char)
    (h : hasSubstr sep s = false) : replaceAll sep tgt s = s := by
  unfold replaceAll
  rw [splitOnList_of_no_occurrence sep s h]
  simp [List.intercalate]

theorem jsLower_fix (c : Char)
    (h : ∀ u ∈ toL "ABCDEFGHIJKLMNOPQRSTUVWXYZ", c ≠ u) : jsLower c = c := by
  unfold jsLower
  rw [if_neg (h 'A' (by decide)), if_neg (h 'B' (by decide)), if_neg (h 'C' (by decide)), if_neg (h 'D' (by decide)), if_neg (h 'E' (by decide)), if_neg (h 'F' (by decide)), if_neg (h 'G' (by decide)), if_neg (h 'H' (by decide)), if_neg (h 'I' (by decide)), if_neg (h 'J' (by decide)), if_neg (h 'K' (by decide)), if_neg (h 'L' (by decide)), if_neg (h 'M' (by decide)), if_neg (h 'N' (by decide)), if_neg (h 'O' (by decide)), if_neg (h 'P' (by decide)), if_neg (h 'Q' (by decide)), if_neg (h 'R' (by decide)), if_neg (h 'S' (by decide)), if_neg (h 'T' (by decide)), if_neg (h 'U' (by decide)), if_neg (h 'V' (by decide)), if_neg (h 'W' (by decide)), if_neg (h 'X' (by decide)), if_neg (h 'Y' (by decide)), if_neg (h 'Z' (by decide))]

theorem jsLower_cases (c : Char) :
    jsLower c = c ∨ jsLower c ∈ toL "abcdefghijklmnopqrstuvwxyz" := by
  by_cases h : ∀ u ∈ toL "ABCDEFGHIJKLMNOPQRSTUVWXYZ", c ≠ u
  · exact Or.inl (jsLower_fix c h)
  · right
    push_neg at h
    obtain ⟨u, hu, hc⟩ := h
    subst hc
    fin_cases hu <;> decide

theorem lower_not_upper :
    ∀ l ∈ toL "abcdefghijklmnopqrstuvwxyz",
      ∀ u ∈ toL "ABCDEFGHIJKLMNOPQRSTUVWXYZ", l ≠ u := by
  decide

theorem jsLower_idem (c : Char) : jsLower (jsLower c) = jsLower c := by
  rcases jsLower_cases c with h | h
  · rw [h]
    exact h
  · exact jsLower_fix _ (fun u hu => lower_not_upper _ h _ hu)

theorem keep_not_upper (c : Char) (h : StatCore.isDiscreteKeep c = true) :
    ∀ u ∈ toL "ABCDEFGHIJKLMNOPQRSTUVWXYZ", c ≠ u := by
  intro u hu h'
  subst h'
  fin_cases hu <;> revert h <;> decide

theorem keep_not_space (c : Char) (h : StatCore.isDiscreteKeep c = true) :
    isSpaceJS c = false := by
  cases hsp : isSpaceJS c with
  | false => rfl
  | true =>
      exfalso
      simp only [isSpaceJS, Bool.or_eq_true, decide_eq_true_eq] at hsp
      rcases hsp with ((((h1 | h1) | h1) | h1) | h1) | h1 <;> subst h1 <;>
        revert h <;> decide

theorem stripLower_id (s : List Char) (h : ∀ c ∈ s, cleanChar c = true) :
    stripLower s = s := by
  induction s with
  | nil => rfl
  | cons x xs ih =>
      have hx := h x (List.mem_cons_self x xs)
      rw [cleanChar, Bool.and_eq_true, decide_eq_true_eq] at hx
      have hxs := ih (fun c hc => h c (List.mem_cons_of_mem x hc))
      unfold stripLower at hxs ⊢
      simp only [List.map_cons, List.filter_cons, hx.1]
      rw [if_pos hx.2]
      rw [hxs]
theorem findSub_single_none (c : Char) (t : List Char)
    (h : ∀ x ∈ t, x ≠ c) : findSub [c] t = none := by
  induction t with
  | nil => rfl
  | cons x xs ih =>
      have hx : x ≠ c := h x (List.mem_cons_self x xs)
      simp only [findSub, List.isPrefixOf, Bool.and_true, beq_iff_eq]
      rw [if_neg (by exact fun hh => hx hh.symm)]
      rw [ih (fun y hy => h y (List.mem_cons_of_mem x hy))]
      rfl

theorem findSub_single_append (c : Char) (t rest : List Char)
    (h : ∀ x ∈ t, x ≠ c) :
    findSub [c] (t ++ c :: rest) = some t.length := by
  induction t with
  | nil => simp [findSub, List.isPrefixOf]
  | cons x xs ih =>
      have hx : x ≠ c := h x (List.mem_cons_self x xs)
      simp only [List.cons_append, findSub, List.isPrefixOf, Bool.and_true,
        beq_iff_eq, List.append_eq]
      rw [if_neg (by exact fun hh => hx hh.symm)]
      rw [ih (fun y hy => h y (List.mem_cons_of_mem x hy))]
      rfl

theorem intercalate_cons_of_ne_nil (t : List Char) (toks : List (List Char))
    (h : toks ≠ []) :
    List.intercalate [','] (t :: toks) = t ++ ',' :: List.intercalate [','] toks := by
  obtain ⟨t2, ts, rfl⟩ : ∃ a b, toks = a :: b := by
    cases toks with
    | nil => exact absurd rfl h
    | cons a b => exact ⟨a, b, rfl⟩
  simp [List.intercalate, List.intersperse]

theorem mem_intercalate_comma (c : Char) (toks : List (List Char))
    (h : c ∈ List.intercalate [','] toks) :
    (∃ t ∈ toks, c ∈ t) ∨ c = ',' := by
  induction toks with
  | nil => simp [List.intercalate] at h
  | cons t ts ih =>
      cases ts with
      | nil =>
          simp [List.intercalate] at h
          exact Or.inl ⟨t, List.mem_cons_self t [], h⟩
      | cons t2 ts2 =>
          rw [intercalate_cons_of_ne_nil t (t2 :: ts2) (by simp)] at h
          rcases List.mem_append.mp h with h1 | h1
          · exact Or.inl ⟨t, List.mem_cons_self _ _, h1⟩
          · rcases List.mem_cons.mp h1 with h2 | h2
            · exact Or.inr h2
            · rcases ih h2 with ⟨u, hu, hcu⟩ | h3
              · exact Or.inl ⟨u, List.mem_cons_of_mem _ hu, hcu⟩
              · exact Or.inr h3

theorem length_intercalate_ge (toks : List (List Char)) :
    toks.length ≤ (List.intercalate [','] toks).length + 1 := by
  induction toks with
  | nil => simp
  | cons t ts ih =>
      cases ts with
      | nil => simp
      | cons t2 ts2 =>
          rw [intercalate_cons_of_ne_nil t (t2 :: ts2) (by simp)]
          simp only [List.length_append, List.length_cons] at ih ⊢
          omega

theorem splitOnListAux_intercalate (toks : List (List Char)) :
    ∀ fuel : ℕ, toks ≠ [] →
      (∀ t ∈ toks, ∀ x ∈ t, x ≠ ',') → toks.length ≤ fuel + 1 →
      splitOnListAux [','] fuel (List.intercalate [','] toks) = toks := by
  induction toks with
  | nil => intro fuel h; exact absurd rfl h
  | cons t ts ih =>
      intro fuel _ hfree hlen
      cases ts with
      | nil =>
          have hsingle : List.intercalate [','] [t] = t := by
            simp [List.intercalate]
          have hnone : findSub [','] t = none :=
            findSub_single_none ',' t (hfree t (List.mem_cons_self _ _))
          rw [hsingle]
          cases fuel with
          | zero => rfl
          | succ n => simp [splitOnListAux, hnone]
      | cons t2 ts2 =>
          rw [intercalate_cons_of_ne_nil t (t2 :: ts2) (by simp)]
          have hfind : findSub [','] (t ++ ',' :: List.intercalate [','] (t2 :: ts2))
              = some t.length :=
            findSub_single_append ',' t _ (hfree t (List.mem_cons_self _ _))
          cases fuel with
          | zero => simp at hlen
          | succ n =>
              have hlen2 : (t2 :: ts2).length ≤ n + 1 := by
                simp only [List.length_cons] at hlen ⊢
                omega
              simp only [splitOnListAux, hfind]
              have htake : (t ++ ',' :: List.intercalate [','] (t2 :: ts2)).take t.length = t := by
                simp [List.take_left]
              have hdrop : (t ++ ',' :: List.intercalate [','] (t2 :: ts2)).drop
                  (t.length + [','].length) = List.intercalate [','] (t2 :: ts2) := by
                simp only [List.length_singleton]
                rw [List.drop_append]
                rfl
              rw [htake, hdrop]
              rw [ih n (by simp) (fun u hu => hfree u (List.mem_cons_of_mem _ hu)) hlen2]

theorem splitOnList_intercalate (toks : List (List Char)) (hne : toks ≠ [])
    (hfree : ∀ t ∈ toks, ∀ x ∈ t, x ≠ ',') :
    splitOnListAux [','] (List.intercalate [','] toks).length
      (List.intercalate [','] toks) = toks := by
  apply splitOnListAux_intercalate toks _ hne hfree
  exact length_intercalate_ge toks

theorem numTokChar_keep (c : Char)
    (h : (c.isDigit || c = '.' || c = '-') = true) :
    StatCore.isDiscreteKeep c = true := by
  unfold StatCore.isDiscreteKeep
  rcases Bool.or_eq_true_iff.mp h with h1 | h1
  · rcases Bool.or_eq_true_iff.mp h1 with h2 | h2
    · simp [h2]
    · simp_all
  · simp_all

theorem numTokChar_ne_comma (c : Char)
    (h : (c.isDigit || c = '.' || c = '-') = true) : c ≠ ',' := by
  intro h'
  subst h'
  revert h
  decide

theorem filterMap_parse_eq_map_tokVal (toks : List (List Char))
    (h : ∀ t ∈ toks, (parseFloatList t).isSome = true) :
    ((toks.map parseFloatList).filterMap id) = toks.map tokVal := by
  induction toks with
  | nil => rfl
  | cons t ts ih =>
      obtain ⟨q, hq⟩ := Option.isSome_iff_exists.mp (h t (List.mem_cons_self _ _))
      simp only [List.map_cons, List.filterMap_cons, id]
      rw [hq]
      simp only [Option.some.injEq]
      rw [ih (fun u hu => h u (List.mem_cons_of_mem _ hu))]
      unfold tokVal
      rw [hq]
      rfl

/-- C8 (confirmed).  For every nonempty list of valid numeric tokens,
`parseRange` on their comma-separated concatenation returns the Discrete
descriptor whose value sequence is the `parseFloat` value of each token, in
the original left-to-right order (duplicates preserved, exact equality). -/
theorem parseRange_discrete_spec (toks : List (List Char)) (hne : toks ≠ [])
    (hval : ∀ t ∈ toks, isNumTok t = true) :
    StatCore.parseRange (List.intercalate (toL ",") toks)
      = RangeDescriptor.discrete (toks.map tokVal) := by
  have hcomma : toL "," = [','] := rfl
  rw [hcomma]
  have htokchar : ∀ t ∈ toks, ∀ c ∈ t, (c.isDigit || c = '.' || c = '-') = true := by
    intro t ht c hc
    have := (Bool.and_eq_true _ _).mp (hval t ht) |>.1
    exact List.all_eq_true.mp this c hc
  have hkeep : ∀ c ∈ List.intercalate [','] toks, StatCore.isDiscreteKeep c = true := by
    intro c hc
    rcases mem_intercalate_comma c toks hc with ⟨t, ht, hct⟩ | h1
    · exact numTokChar_keep c (htokchar t ht c hct)
    · subst h1
      decide
  have hclean : ∀ c ∈ List.intercalate [','] toks, cleanChar c = true := by
    intro c hc
    have hk := hkeep c hc
    unfold cleanChar
    rw [jsLower_fix c (keep_not_upper c hk), keep_not_space c hk]
    simp
  have hno : ∀ d : Char, StatCore.isDiscreteKeep d = false →
      d ∉ List.intercalate [','] toks := by
    intro d hd hmem
    rw [hkeep d hmem] at hd
    cases hd
  have hnorm : StatCore.normalizeRange (List.intercalate [','] toks)
      = List.intercalate [','] toks := by
    unfold StatCore.normalizeRange
    rw [stripLower_id _ hclean]
    rw [show toL "<=" = '<' :: toL "=" from rfl,
      replaceAll_of_no_occurrence _ _ _
        (hasSubstr_false_of_head_notMem '<' _ _ (hno '<' (by decide)))]
    rw [show toL ">=" = '>' :: toL "=" from rfl,
      replaceAll_of_no_occurrence _ _ _
        (hasSubstr_false_of_head_notMem '>' _ _ (hno '>' (by decide)))]
  have hlt : hasSubstr (toL "<") (List.intercalate [','] toks) = false :=
    hasSubstr_false_of_head_notMem '<' _ _ (hno '<' (by decide))
  have hgt : hasSubstr (toL ">") (List.intercalate [','] toks) = false :=
    hasSubstr_false_of_head_notMem '>' _ _ (hno '>' (by decide))
  have hinf : hasSubstr (toL "inf") (List.intercalate [','] toks) = false :=
    hasSubstr_false_of_head_notMem 'i' _ _ (hno 'i' (by decide))
  have hfilter : (List.intercalate [','] toks).filter StatCore.isDiscreteKeep
      = List.intercalate [','] toks :=
    List.filter_eq_self.mpr hkeep
  have hnonempty : (List.intercalate [','] toks).isEmpty = false := by
    obtain ⟨t0, ts, rfl⟩ : ∃ a b, toks = a :: b := by
      cases toks with
      | nil => exact absurd rfl hne
      | cons a b => exact ⟨a, b, rfl⟩
    have ht0 : t0 ≠ [] := by
      intro h0
      have := hval t0 (List.mem_cons_self _ _)
      rw [h0] at this
      exact absurd this (by decide)
    cases ts with
    | nil =>
        simp only [List.intercalate, List.intersperse]
        simpa [List.isEmpty_iff] using ht0
    | cons t2 ts2 =>
        rw [intercalate_cons_of_ne_nil t0 (t2 :: ts2) (by simp)]
        simp [List.isEmpty_iff, ht0]
  have hsplit : splitOnList [','] (List.intercalate [','] toks) = toks := by
    unfold splitOnList
    rw [if_neg (by decide)]
    exact splitOnList_intercalate toks hne
      (fun t ht x hx => numTokChar_ne_comma x (htokchar t ht x hx))
  have hvalues : ((splitOnList [','] (List.intercalate [','] toks)).map
      parseFloatList).filterMap id = toks.map tokVal := by
    rw [hsplit]
    exact filterMap_parse_eq_map_tokVal toks
      (fun t ht => (Bool.and_eq_true _ _).mp (hval t ht) |>.2)
  have hvne : (toks.map tokVal).isEmpty = false := by
    cases toks with
    | nil => exact absurd rfl hne
    | cons a b => rfl
  simp only [StatCore.parseRange]
  rw [hnorm]
  rw [hlt, hgt, hinf]
  rw [if_neg (by simp)]
  rw [hfilter]
  rw [if_neg (by simp [hnonempty])]
  rw [hcomma, hvalues]
  rw [if_neg (by simp [hvne])]

/-- Witness for C8 at the token list `["1", "2.5", "-3"]`. -/
theorem parseRange_discrete_spec_witness :
    StatCore.parseRange (toL "1,2.5,-3")
      = RangeDescriptor.discrete [1, 5/2, -3] := by
  have h := parseRange_discrete_spec [toL "1", toL "2.5", toL "-3"]
    (by simp) (by decide)
  have heq : List.intercalate (toL ",") [toL "1", toL "2.5", toL "-3"]
      = toL "1,2.5,-3" := by decide
  rw [heq] at h
  rw [h]
  have : [toL "1", toL "2.5", toL "-3"].map tokVal = [1, 5/2, -3] := by decide
  rw [this]

/-! ## Claim C6: idempotence of cleanForEval -/

theorem sf_site_eq (r : List Char) :
    siteFreeB ('e' :: '^' :: r)
      = ((StatCore.matchGroup r).isNone && siteFreeB ('^' :: r)) := rfl

theorem sf_cons_eq (a : Char) (l : List Char)
    (h : a = 'e' → l.head? ≠ some '^') : siteFreeB (a :: l) = siteFreeB l := by
  rw [siteFreeB.eq_def]
  split
  · rename_i r heq
    injection heq with h1 h2
    subst h2
    exact absurd rfl (h h1)
  · rename_i x r hne h2
    injection h2 with e1 e2
    subst e2
    rfl
  · rename_i heq
    exact absurd heq (by simp)

theorem np_cons_cons (a b : Char) (r : List Char) :
    noPairB (a :: b :: r)
      = (!(a.isDigit && (b.isLower || b = '(')) && noPairB (b :: r)) := rfl

theorem rx2_nil : StatCore.rx2 [] = [] := rfl

theorem rx2_single (a : Char) : StatCore.rx2 [a] = [a] := by
  rw [StatCore.rx2.eq_def]

theorem rx2_head (l : List Char) : (StatCore.rx2 l).head? = l.head? := by
  rw [StatCore.rx2.eq_def]
  split
  · split <;> rfl
  · rfl

theorem isLower_not_digit (c : Char) (h : c.isLower = true) : c.isDigit = false := by
  simp only [Char.isLower, decide_eq_true_eq, Bool.and_eq_true] at h
  simp only [Char.isDigit, Bool.and_eq_false_iff, decide_eq_false_iff_not]
  obtain ⟨h1a, h1b⟩ := h
  have h97 : (97 : UInt32).toNat ≤ c.val.toNat := UInt32.le_def.mp h1a
  right
  intro h2
  have h57 : c.val.toNat ≤ (57 : UInt32).toNat := UInt32.le_def.mp h2
  have e97 : (97 : UInt32).toNat = 97 := rfl
  have e57 : (57 : UInt32).toNat = 57 := rfl
  rw [e97] at h97
  rw [e57] at h57
  omega

theorem np_cons (a : Char) (l : List Char)
    (hhead : ∀ b, l.head? = some b → (!(a.isDigit && (b.isLower || b = '('))) = true)
    (hl : noPairB l = true) : noPairB (a :: l) = true := by
  cases l with
  | nil => rfl
  | cons b r =>
      rw [np_cons_cons]
      rw [hhead b rfl, hl]
      rfl

theorem rx2_noPair (s : List Char) : noPairB (StatCore.rx2 s) = true := by
  induction s using StatCore.rx2.induct with
  | case1 a b rest hmatch ih =>
      rw [StatCore.rx2.eq_def]
      simp only [hmatch, if_true]
      apply np_cons
      · intro c hc
        injection hc with hc
        subst hc
        simp
      · apply np_cons
        · intro c hc
          injection hc with hc
          subst hc
          simp
        · apply np_cons
          · intro c hc
            have hbd : b.isDigit = false := by
              rcases Bool.and_eq_true _ _ |>.mp hmatch with ⟨h1, h2⟩
              rcases Bool.or_eq_true_iff.mp h2 with h3 | h3
              · exact isLower_not_digit b h3
              · rw [of_decide_eq_true h3]
                rfl
            rw [hbd]
            rfl
          · exact ih
  | case2 a b rest hmatch ih =>
      rw [StatCore.rx2.eq_def]
      simp only [hmatch, if_false]
      apply np_cons
      · intro c hc
        rw [rx2_head (b :: rest)] at hc
        injection hc with hc
        subst hc
        rw [Bool.not_eq_true']
        exact Bool.not_eq_true _ |>.symm ▸ (Bool.eq_false_iff.mpr hmatch)
      · exact ih
  | case3 s h =>
      rw [StatCore.rx2.eq_def]
      split
      · rename_i a b r
        exact absurd rfl (h a b r)
      · cases s with
        | nil => rfl
        | cons x xs =>
            cases xs with
            | nil => rfl
            | cons y ys => exact absurd rfl (h x y ys)

theorem noPair_rx2_id (s : List Char) (h : noPairB s = true) :
    StatCore.rx2 s = s := by
  induction s using StatCore.rx2.induct with
  | case1 a b rest hmatch ih =>
      rw [np_cons_cons] at h
      rcases Bool.and_eq_true _ _ |>.mp h with ⟨h1, _⟩
      rw [hmatch] at h1
      cases h1
  | case2 a b rest hmatch ih =>
      rw [StatCore.rx2.eq_def]
      simp only [if_neg hmatch]
      rw [np_cons_cons] at h
      rcases Bool.and_eq_true _ _ |>.mp h with ⟨_, h2⟩
      rw [ih h2]
  | case3 s h3 =>
      rw [StatCore.rx2.eq_def]
      split
      · rename_i a b r
        exact absurd rfl (h3 a b r)
      · rfl

theorem rx2_mem (s : List Char) (c : Char) (hc : c ∈ StatCore.rx2 s) :
    c ∈ s ∨ c = '*' := by
  induction s using StatCore.rx2.induct with
  | case1 a b rest hmatch ih =>
      rw [StatCore.rx2.eq_def] at hc
      simp only [hmatch, if_true] at hc
      rcases List.mem_cons.mp hc with h1 | h1
      · exact Or.inl (h1 ▸ List.mem_cons_self _ _)
      · rcases List.mem_cons.mp h1 with h2 | h2
        · exact Or.inr h2
        · rcases List.mem_cons.mp h2 with h3 | h3
          · exact Or.inl (h3 ▸ List.mem_cons_of_mem _ (List.mem_cons_self _ _))
          · rcases ih h3 with h4 | h4
            · exact Or.inl (List.mem_cons_of_mem _ (List.mem_cons_of_mem _ h4))
            · exact Or.inr h4
  | case2 a b rest hmatch ih =>
      rw [StatCore.rx2.eq_def] at hc
      simp only [if_neg hmatch] at hc
      rcases List.mem_cons.mp hc with h1 | h1
      · exact Or.inl (h1 ▸ List.mem_cons_self _ _)
      · rcases ih h1 with h2 | h2
        · exact Or.inl (List.mem_cons_of_mem _ h2)
        · exact Or.inr h2
  | case3 s h3 =>
      rw [StatCore.rx2.eq_def] at hc
      split at hc
      · rename_i a b r
        exact absurd rfl (h3 a b r)
      · exact Or.inl hc

theorem takeWhile_head_fail (p : Char → Bool) (l : List Char)
    (h : ∀ d, l.head? = some d → p d = false) : l.takeWhile p = [] := by
  cases l with
  | nil => rfl
  | cons d r => simp [List.takeWhile_cons, h d rfl]

theorem takeWhile_nil_head (p : Char → Bool) (l : List Char)
    (h : l.takeWhile p = []) : ∀ d, l.head? = some d → p d = false := by
  intro d hd
  cases l with
  | nil => cases hd
  | cons x r =>
      injection hd with hd
      subst hd
      by_cases hp : p x = true
      · rw [List.takeWhile_cons_of_pos hp] at h
        cases h
      · exact Bool.eq_false_iff.mpr hp

theorem mg_none_char (c : Char) (r : List Char) (hc : ¬ c = '(')
    (h : StatCore.isCls c = false) : StatCore.matchGroup (c :: r) = none := by
  rw [StatCore.matchGroup.eq_def]
  split
  · rename_i r2 heq
    injection heq with e1 e2
    exact absurd e1 hc
  · rename_i hne
    simp only []
    rw [if_pos]
    rw [List.takeWhile_cons_of_neg (by simp [h])]
    rfl

theorem mg_none_char_inv (c : Char) (r : List Char) (hc : ¬ c = '(')
    (h : StatCore.matchGroup (c :: r) = none) : StatCore.isCls c = false := by
  by_cases hcls : StatCore.isCls c = true
  · exfalso
    rw [StatCore.matchGroup.eq_def] at h
    split at h
    · rename_i r2 heq
      injection heq with e1 e2
      exact hc e1
    · rename_i hne
      simp only [] at h
      rw [List.takeWhile_cons_of_pos hcls] at h
      simp at h
      split at h <;> simp at h
  · exact Bool.eq_false_iff.mpr hcls

theorem mg_none_paren (r2 : List Char)
    (h : ∀ d, r2.head? = some d → StatCore.isCls d = false) :
    StatCore.matchGroup ('(' :: r2) = none := by
  show (let body := r2.takeWhile StatCore.isCls
    if body.isEmpty then none
    else
      match r2.dropWhile StatCore.isCls with
      | ')' :: r3 => some ('(' :: (body ++ [')']), r3)
      | after => some ('(' :: body, after)) = none
  rw [takeWhile_head_fail _ _ h]
  rfl

theorem mg_none_paren_inv (r2 : List Char)
    (h : StatCore.matchGroup ('(' :: r2) = none) :
    ∀ d, r2.head? = some d → StatCore.isCls d = false := by
  apply takeWhile_nil_head
  by_cases he : r2.takeWhile StatCore.isCls = []
  · exact he
  · exfalso
    have : StatCore.matchGroup ('(' :: r2) ≠ none := by
      show (let body := r2.takeWhile StatCore.isCls
        if body.isEmpty then none
        else
          match r2.dropWhile StatCore.isCls with
          | ')' :: r3 => some ('(' :: (body ++ [')']), r3)
          | after => some ('(' :: body, after)) ≠ none
      rw [if_neg (by simpa using he)]
      split <;> simp
    exact this h

theorem isCls_ne_hat (c : Char) (h : StatCore.isCls c = true) : c ≠ '^' := by
  intro h'
  subst h'
  exact absurd h (by decide)

theorem mg_grp_no_hat (r grp r' : List Char)
    (h : StatCore.matchGroup r = some (grp, r')) : ∀ c ∈ grp, c ≠ '^' := by
  intro c hc
  rw [StatCore.matchGroup.eq_def] at h
  split at h
  · rename_i r2 heq
    simp only [] at h
    split at h
    · cases h
    · split at h
      · rename_i r3 hdrop
        injection h with h
        injection h with h1 h2
        subst h1
        rcases List.mem_cons.mp hc with h3 | h3
        · subst h3; decide
        · rcases List.mem_append.mp h3 with h4 | h4
          · exact isCls_ne_hat c (List.mem_takeWhile_imp h4)
          · rcases List.mem_singleton.mp h4 with rfl; decide
      · injection h with h
        injection h with h1 h2
        subst h1
        rcases List.mem_cons.mp hc with h3 | h3
        · subst h3; decide
        · exact isCls_ne_hat c (List.mem_takeWhile_imp h3)
  · rename_i hne
    simp only [] at h
    split at h
    · cases h
    · split at h
      · rename_i r3 hdrop
        injection h with h
        injection h with h1 h2
        subst h1
        rcases List.mem_append.mp hc with h4 | h4
        · exact isCls_ne_hat c (List.mem_takeWhile_imp h4)
        · rcases List.mem_singleton.mp h4 with rfl; decide
      · injection h with h
        injection h with h1 h2
        subst h1
        exact isCls_ne_hat c (List.mem_takeWhile_imp hc)

theorem mg_rest_le (r grp r' : List Char)
    (h : StatCore.matchGroup r = some (grp, r')) : r'.length ≤ r.length := by
  rw [StatCore.matchGroup.eq_def] at h
  split at h
  · rename_i r2
    simp only [] at h
    split at h
    · cases h
    · split at h
      · rename_i r3 hdrop
        injection h with h
        injection h with h1 h2
        have h5 : (')' :: r3).length ≤ r2.length := by
          rw [← hdrop]
          exact (List.dropWhile_sublist _).length_le
        rw [← h2]
        simp only [List.length_cons] at h5 ⊢
        omega
      · injection h with h
        injection h with h1 h2
        have h5 : (r2.dropWhile StatCore.isCls).length ≤ r2.length :=
          (List.dropWhile_sublist _).length_le
        rw [← h2]
        simp only [List.length_cons]
        omega
  · rename_i hne
    simp only [] at h
    split at h
    · cases h
    · split at h
      · rename_i r3 hdrop
        injection h with h
        injection h with h1 h2
        have h5 : (')' :: r3).length ≤ r.length := by
          rw [← hdrop]
          exact (List.dropWhile_sublist _).length_le
        rw [← h2]
        simp only [List.length_cons] at h5
        omega
      · injection h with h
        injection h with h1 h2
        rw [← h2]
        exact (List.dropWhile_sublist _).length_le

theorem mg_mem (r grp r' : List Char)
    (h : StatCore.matchGroup r = some (grp, r')) :
    (∀ c ∈ grp, c ∈ r ∨ c = '(' ∨ c = ')') ∧ (∀ c ∈ r', c ∈ r) := by
  rw [StatCore.matchGroup.eq_def] at h
  split at h
  · rename_i r2
    simp only [] at h
    split at h
    · cases h
    · split at h
      · rename_i r3 hdrop
        injection h with h
        injection h with h1 h2
        constructor
        · intro c hc
          rw [← h1] at hc
          rcases List.mem_cons.mp hc with h3 | h3
          · exact Or.inr (Or.inl h3)
          · rcases List.mem_append.mp h3 with h4 | h4
            · exact Or.inl (List.mem_cons_of_mem _ ((List.takeWhile_sublist _).mem h4))
            · exact Or.inr (Or.inr (List.mem_singleton.mp h4))
        · intro c hc
          rw [← h2] at hc
          have : c ∈ ')' :: r3 := List.mem_cons_of_mem _ hc
          rw [← hdrop] at this
          exact List.mem_cons_of_mem _ ((List.dropWhile_sublist _).mem this)
      · injection h with h
        injection h with h1 h2
        constructor
        · intro c hc
          rw [← h1] at hc
          rcases List.mem_cons.mp hc with h3 | h3
          · exact Or.inr (Or.inl h3)
          · exact Or.inl (List.mem_cons_of_mem _ ((List.takeWhile_sublist _).mem h3))
        · intro c hc
          rw [← h2] at hc
          exact List.mem_cons_of_mem _ ((List.dropWhile_sublist _).mem hc)
  · rename_i hne
    simp only [] at h
    split at h
    · cases h
    · split at h
      · rename_i r3 hdrop
        injection h with h
        injection h with h1 h2
        constructor
        · intro c hc
          rw [← h1] at hc
          rcases List.mem_append.mp hc with h4 | h4
          · exact Or.inl ((List.takeWhile_sublist _).mem h4)
          · exact Or.inr (Or.inr (List.mem_singleton.mp h4))
        · intro c hc
          rw [← h2] at hc
          have : c ∈ ')' :: r3 := List.mem_cons_of_mem _ hc
          rw [← hdrop] at this
          exact (List.dropWhile_sublist _).mem this
      · injection h with h
        injection h with h1 h2
        constructor
        · intro c hc
          rw [← h1] at hc
          exact Or.inl ((List.takeWhile_sublist _).mem hc)
        · intro c hc
          rw [← h2] at hc
          exact (List.dropWhile_sublist _).mem hc

theorem rx1Aux_head (g : ℕ) (r : List Char) :
    (StatCore.rx1Aux g r).head? = r.head? := by
  rw [StatCore.rx1Aux.eq_def]
  split
  · rfl
  · split
    · rename_i rest
      rcases hmg : StatCore.matchGroup rest with _ | ⟨grp, rest2⟩ <;> simp [hmg]
    · rfl
    · rfl

theorem rx1Aux_mem (g : ℕ) (r : List Char) (c : Char)
    (hc : c ∈ StatCore.rx1Aux g r) :
    c ∈ r ∨ c = 'e' ∨ c = 'x' ∨ c = 'p' ∨ c = '(' ∨ c = ')' := by
  induction g, r using StatCore.rx1Aux.induct with
  | case1 xs => exact Or.inl hc
  | case2 fuel rest grp rest2 hmg ih =>
      rw [StatCore.rx1Aux.eq_def] at hc
      simp only [hmg] at hc
      rcases List.mem_cons.mp hc with h1 | h1
      · exact Or.inr (Or.inl h1)
      · rcases List.mem_cons.mp h1 with h2 | h2
        · exact Or.inr (Or.inr (Or.inl h2))
        · rcases List.mem_cons.mp h2 with h3 | h3
          · exact Or.inr (Or.inr (Or.inr (Or.inl h3)))
          · rcases List.mem_cons.mp h3 with h4 | h4
            · exact Or.inr (Or.inr (Or.inr (Or.inr (Or.inl h4))))
            · rcases List.mem_append.mp h4 with h5 | h5
              · rcases mg_mem rest grp rest2 hmg |>.1 c h5 with h6 | h6 | h6
                · exact Or.inl (List.mem_cons_of_mem _ (List.mem_cons_of_mem _ h6))
                · exact Or.inr (Or.inr (Or.inr (Or.inr (Or.inl h6))))
                · exact Or.inr (Or.inr (Or.inr (Or.inr (Or.inr h6))))
              · rcases List.mem_cons.mp h5 with h6 | h6
                · exact Or.inr (Or.inr (Or.inr (Or.inr (Or.inr h6))))
                · rcases ih h6 with h7 | h7
                  · exact Or.inl (List.mem_cons_of_mem _ (List.mem_cons_of_mem _
                      (mg_mem rest grp rest2 hmg |>.2 c h7)))
                  · exact Or.inr h7
  | case3 fuel rest hmg ih =>
      rw [StatCore.rx1Aux.eq_def] at hc
      simp only [hmg] at hc
      rcases List.mem_cons.mp hc with h1 | h1
      · exact Or.inr (Or.inl h1)
      · rcases ih h1 with h7 | h7
        · rcases List.mem_cons.mp h7 with h8 | h8
          · exact Or.inl (h8 ▸ List.mem_cons_of_mem _ (List.mem_cons_self _ _))
          · exact Or.inl (List.mem_cons_of_mem _ (List.mem_cons_of_mem _ h8))
        · exact Or.inr h7
  | case4 fuel d rest hne ih =>
      rw [StatCore.rx1Aux.eq_def] at hc
      simp only [] at hc
      rcases List.mem_cons.mp hc with h1 | h1
      · exact Or.inl (h1 ▸ List.mem_cons_self _ _)
      · rcases ih h1 with h7 | h7
        · exact Or.inl (List.mem_cons_of_mem _ h7)
        · exact Or.inr h7
  | case5 fuel =>
      rw [StatCore.rx1Aux.eq_def] at hc
      simp at hc

theorem rx2_cons_ex (c : Char) (r : List Char) :
    ∃ l, StatCore.rx2 (c :: r) = c :: l := by
  rw [StatCore.rx2.eq_def]
  cases r with
  | nil => exact ⟨[], rfl⟩
  | cons b rest =>
      by_cases h : (c.isDigit && (b.isLower || b = '(')) = true
      · exact ⟨'*' :: b :: StatCore.rx2 rest, by simp [h]⟩
      · exact ⟨StatCore.rx2 (b :: rest), by simp [h]⟩

theorem rx1Aux_nil (g : ℕ) : StatCore.rx1Aux g [] = [] := by
  cases g <;> rfl

theorem rx1Aux_cons_ne_e (g : ℕ) (c : Char) (r : List Char) (hc : ¬ c = 'e') :
    ∃ l, StatCore.rx1Aux g (c :: r) = c :: l := by
  cases g with
  | zero => exact ⟨r, rfl⟩
  | succ fuel =>
      rw [StatCore.rx1Aux.eq_def]
      refine ⟨StatCore.rx1Aux fuel r, ?_⟩
      split
      · rename_i heq
        exact absurd heq (Nat.succ_ne_zero fuel)
      · rename_i fuel2 heq
        injection heq with hf
        subst hf
        split
        · rename_i rest heq2
          injection heq2 with e1 e2
          exact absurd e1 hc
        · rename_i d rest hne heq2
          injection heq2 with e1 e2
          subst e1 e2
          rfl
        · rename_i heq2
          cases heq2

theorem isCls_e : StatCore.isCls 'e' = true := rfl

theorem rx2_not_digit_cons (c : Char) (r : List Char) (hc : c.isDigit = false) :
    StatCore.rx2 (c :: r) = c :: StatCore.rx2 r := by
  cases r with
  | nil => rw [rx2_single c]; rfl
  | cons b rest =>
      show (if (c.isDigit && (b.isLower || b = '(')) = true
          then c :: '*' :: b :: StatCore.rx2 rest
          else c :: StatCore.rx2 (b :: rest)) = c :: StatCore.rx2 (b :: rest)
      rw [if_neg (by simp [hc])]

theorem rx1Aux_succ_cons_ne_e (fuel : ℕ) (c : Char) (r : List Char)
    (hc : ¬ c = 'e') :
    StatCore.rx1Aux (fuel + 1) (c :: r) = c :: StatCore.rx1Aux fuel r := by
  rw [StatCore.rx1Aux.eq_def]
  split
  · rename_i heq
    exact absurd heq (Nat.succ_ne_zero fuel)
  · rename_i fuel2 heq
    injection heq with hf
    subst hf
    split
    · rename_i rest heq2
      injection heq2 with e1 e2
      exact absurd e1 hc
    · rename_i d rest hne heq2
      injection heq2 with e1 e2
      subst e1 e2
      rfl
    · rename_i heq2
      cases heq2

theorem mg_pres_rx2 (r : List Char) (h : StatCore.matchGroup r = none) :
    StatCore.matchGroup (StatCore.rx2 r) = none := by
  cases r with
  | nil => exact h
  | cons c r2 =>
      by_cases hp : c = '('
      · subst hp
        have h2 := mg_none_paren_inv r2 h
        rw [rx2_not_digit_cons '(' r2 (by decide)]
        apply mg_none_paren
        intro d hd
        rw [rx2_head r2] at hd
        exact h2 d hd
      · have h2 := mg_none_char_inv c r2 hp h
        obtain ⟨l, hl⟩ := rx2_cons_ex c r2
        rw [hl]
        exact mg_none_char c l hp h2

theorem mg_pres_rx1 (g : ℕ) (r : List Char)
    (h : StatCore.matchGroup r = none) :
    StatCore.matchGroup (StatCore.rx1Aux g r) = none := by
  cases g with
  | zero => exact h
  | succ fuel =>
      cases r with
      | nil => rw [rx1Aux_nil]; exact h
      | cons c r2 =>
          by_cases hp : c = '('
          · subst hp
            have h2 := mg_none_paren_inv r2 h
            rw [rx1Aux_succ_cons_ne_e fuel '(' r2 (by decide)]
            apply mg_none_paren
            intro d hd
            rw [rx1Aux_head fuel r2] at hd
            exact h2 d hd
          · have h2 := mg_none_char_inv c r2 hp h
            have hce : ¬ c = 'e' := by
              intro h3
              subst h3
              rw [isCls_e] at h2
              cases h2
            rw [rx1Aux_succ_cons_ne_e fuel c r2 hce]
            exact mg_none_char c _ hp h2

theorem sf_append (xs ys : List Char)
    (hno : ∀ c ∈ xs, c ≠ '^')
    (hj : xs.getLast? ≠ some 'e' ∨ ys.head? ≠ some '^')
    (hys : siteFreeB ys = true) : siteFreeB (xs ++ ys) = true := by
  induction xs with
  | nil => exact hys
  | cons a xs ih =>
      rw [List.cons_append, sf_cons_eq]
      · apply ih
        · exact fun c hc => hno c (List.mem_cons_of_mem a hc)
        · cases xs with
          | nil => exact Or.inl (by simp)
          | cons b l =>
              rcases hj with hj | hj
              · exact Or.inl (by rw [← List.getLast?_cons_cons]; exact hj)
              · exact Or.inr hj
      · intro hae
        cases xs with
        | nil =>
            simp only [List.nil_append]
            rcases hj with hj | hj
            · exfalso
              apply hj
              rw [hae]
              rfl
            · exact hj
        | cons b l =>
            simp only [List.cons_append, List.head?_cons]
            intro hcon
            injection hcon with hcon
            exact hno b (List.mem_cons_of_mem a (List.mem_cons_self b l)) hcon

theorem rx1_siteFree (g : ℕ) (r : List Char) :
    r.length ≤ g → siteFreeB (StatCore.rx1Aux g r) = true := by
  induction g, r using StatCore.rx1Aux.induct with
  | case1 xs =>
      intro hg
      have : xs = [] := List.length_eq_zero.mp (Nat.le_zero.mp hg)
      subst this
      rfl
  | case2 fuel rest grp rest2 hmg ih =>
      intro hg
      rw [StatCore.rx1Aux.eq_def]
      simp only [hmg]
      have hlen : rest2.length ≤ fuel := by
        have h1 := mg_rest_le rest grp rest2 hmg
        simp only [List.length_cons] at hg
        omega
      have h1 : siteFreeB (StatCore.rx1Aux fuel rest2) = true := ih hlen
      have h2 : siteFreeB (')' :: StatCore.rx1Aux fuel rest2) = true := by
        rw [sf_cons_eq _ _ (by intro h; cases h)]
        exact h1
      have h3 : siteFreeB (grp ++ ')' :: StatCore.rx1Aux fuel rest2) = true := by
        apply sf_append
        · exact mg_grp_no_hat rest grp rest2 hmg
        · exact Or.inr (by simp)
        · exact h2
      rw [sf_cons_eq _ _ (by intro h2; simp), sf_cons_eq _ _ (by intro h2; cases h2),
        sf_cons_eq _ _ (by intro h2; cases h2), sf_cons_eq _ _ (by intro h2; cases h2)]
      exact h3
  | case3 fuel rest hmg ih =>
      intro hg
      rw [StatCore.rx1Aux.eq_def]
      simp only [hmg]
      have hlen : ('^' :: rest).length ≤ fuel := by
        simp only [List.length_cons] at hg ⊢
        omega
      obtain ⟨f2, hf2⟩ : ∃ f2, fuel = f2 + 1 := by
        cases fuel with
        | zero => simp at hlen
        | succ n => exact ⟨n, rfl⟩
      subst hf2
      rw [rx1Aux_succ_cons_ne_e f2 '^' rest (by decide)]
      rw [sf_site_eq]
      have hih := ih hlen
      rw [rx1Aux_succ_cons_ne_e f2 '^' rest (by decide)] at hih
      rw [hih]
      have : StatCore.matchGroup (StatCore.rx1Aux f2 rest) = none := mg_pres_rx1 f2 rest hmg
      rw [this]
      rfl
  | case4 fuel d rest hne ih =>
      intro hg
      rw [StatCore.rx1Aux.eq_def]
      simp only []
      rw [sf_cons_eq]
      · apply ih
        simp only [List.length_cons] at hg
        omega
      · intro hde hcon
        rw [rx1Aux_head fuel rest] at hcon
        cases rest with
        | nil => cases hcon
        | cons x r2 =>
            injection hcon with hcon
            exact hne r2 hde (by rw [hcon])
  | case5 fuel =>
      intro hg
      rw [rx1Aux_nil]
      rfl

theorem siteFree_rx1_id (g : ℕ) (r : List Char) :
    siteFreeB r = true → StatCore.rx1Aux g r = r := by
  induction g, r using StatCore.rx1Aux.induct with
  | case1 xs => intro _; rfl
  | case2 fuel rest grp rest2 hmg ih =>
      intro h
      rw [sf_site_eq] at h
      rcases Bool.and_eq_true _ _ |>.mp h with ⟨h1, _⟩
      rw [hmg] at h1
      cases h1
  | case3 fuel rest hmg ih =>
      intro h
      rw [sf_site_eq] at h
      rcases Bool.and_eq_true _ _ |>.mp h with ⟨_, h2⟩
      rw [StatCore.rx1Aux.eq_def]
      simp only [hmg]
      rw [ih h2]
  | case4 fuel d rest hne ih =>
      intro h
      have hcond : d = 'e' → rest.head? ≠ some '^' := by
        intro hde hcon
        cases rest with
        | nil => cases hcon
        | cons x r2 =>
            injection hcon with hcon
            exact hne r2 hde (by rw [hcon])
      rw [sf_cons_eq d rest hcond] at h
      rw [StatCore.rx1Aux.eq_def]
      simp only []
      rw [ih h]
  | case5 fuel => intro _; rfl

theorem rx2_siteFree (s : List Char) :
    siteFreeB s = true → siteFreeB (StatCore.rx2 s) = true := by
  induction s using StatCore.rx2.induct with
  | case1 a b rest hmatch ih =>
      intro h
      have hbne : ¬ b = '^' := by
        intro hb
        subst hb
        rcases Bool.and_eq_true _ _ |>.mp hmatch with ⟨_, h2⟩
        rcases Bool.or_eq_true_iff.mp h2 with h3 | h3
        · exact absurd h3 (by decide)
        · exact absurd (of_decide_eq_true h3) (by decide)
      have h1 : siteFreeB (b :: rest) = true := by
        rw [sf_cons_eq a (b :: rest) (fun _ hcon => hbne (Option.some.inj hcon))] at h
        exact h
      rw [StatCore.rx2.eq_def]
      simp only [hmatch, if_true]
      rw [sf_cons_eq _ _ (by intro _ hcon; cases hcon)]
      rw [sf_cons_eq _ _ (by intro hx; cases hx)]
      by_cases hsite : b = 'e' ∧ rest.head? = some '^'
      · obtain ⟨hbe, hrh⟩ := hsite
        subst hbe
        obtain ⟨r2, hr2⟩ : ∃ r2, rest = '^' :: r2 := by
          cases rest with
          | nil => cases hrh
          | cons x r2 =>
              injection hrh with hrh
              exact ⟨r2, by rw [hrh]⟩
        subst hr2
        rw [sf_site_eq] at h1
        rcases Bool.and_eq_true _ _ |>.mp h1 with ⟨hmgn, hsf⟩
        rw [rx2_not_digit_cons '^' r2 (by decide)]
        rw [sf_site_eq]
        have hpres : StatCore.matchGroup (StatCore.rx2 r2) = none :=
          mg_pres_rx2 r2 (by
            cases hmg2 : StatCore.matchGroup r2 with
            | none => rfl
            | some p => rw [hmg2] at hmgn; cases hmgn)
        rw [hpres]
        have hih := ih hsf
        rw [rx2_not_digit_cons '^' r2 (by decide)] at hih
        rw [sf_cons_eq '^' (StatCore.rx2 r2) (by intro hx; cases hx)] at hih
        rw [sf_cons_eq '^' (StatCore.rx2 r2) (by intro hx; cases hx)]
        rw [hih]
        rfl
      · rw [sf_cons_eq b (StatCore.rx2 rest)]
        · apply ih
          rw [sf_cons_eq b rest] at h1
          · exact h1
          · intro hbe hcon
            exact hsite ⟨hbe, hcon⟩
        · intro hbe hcon
          rw [rx2_head rest] at hcon
          exact hsite ⟨hbe, hcon⟩
  | case2 a b rest hmatch ih =>
      intro h
      rw [StatCore.rx2.eq_def]
      simp only [if_neg hmatch]
      by_cases hsite : a = 'e' ∧ b = '^'
      · obtain ⟨hae, hbh⟩ := hsite
        subst hae
        subst hbh
        rw [sf_site_eq] at h
        rcases Bool.and_eq_true _ _ |>.mp h with ⟨hmgn, hsf⟩
        rw [rx2_not_digit_cons '^' rest (by decide)]
        rw [sf_site_eq]
        have hpres : StatCore.matchGroup (StatCore.rx2 rest) = none :=
          mg_pres_rx2 rest (by
            cases hmg2 : StatCore.matchGroup rest with
            | none => rfl
            | some p => rw [hmg2] at hmgn; cases hmgn)
        rw [hpres]
        have := ih hsf
        rw [rx2_not_digit_cons '^' rest (by decide)] at this
        rw [this]
        rfl
      · rw [sf_cons_eq a (StatCore.rx2 (b :: rest))]
        · apply ih
          rw [sf_cons_eq a (b :: rest)] at h
          · exact h
          · intro hae hcon
            injection hcon with hcon
            exact hsite ⟨hae, hcon⟩
        · intro hae hcon
          rw [rx2_head (b :: rest)] at hcon
          injection hcon with hcon
          exact hsite ⟨hae, hcon⟩
  | case3 s h3 =>
      intro h
      rw [StatCore.rx2.eq_def]
      split
      · rename_i a b r
        exact absurd rfl (h3 a b r)
      · exact h

theorem stripLower_clean (s : List Char) :
    ∀ c ∈ stripLower s, cleanChar c = true := by
  intro c hc
  unfold stripLower at hc
  have hmem := List.mem_filter.mp hc
  obtain ⟨hmap, hspace⟩ := hmem
  obtain ⟨d, _, hd⟩ := List.mem_map.mp hmap
  unfold cleanChar
  rw [← hd]
  rw [jsLower_idem d]
  simp only [decide_True, Bool.true_and]
  rw [← hd] at hspace
  exact hspace

theorem rx1_clean (g : ℕ) (r : List Char)
    (h : ∀ c ∈ r, cleanChar c = true) :
    ∀ c ∈ StatCore.rx1Aux g r, cleanChar c = true := by
  intro c hc
  rcases rx1Aux_mem g r c hc with h1 | h1 | h1 | h1 | h1 | h1
  · exact h c h1
  all_goals subst h1
  all_goals decide

theorem rx2_clean (r : List Char)
    (h : ∀ c ∈ r, cleanChar c = true) :
    ∀ c ∈ StatCore.rx2 r, cleanChar c = true := by
  intro c hc
  rcases rx2_mem r c hc with h1 | h1
  · exact h c h1
  · subst h1
    decide

/-- C6 (confirmed): `cleanForEval` is idempotent. -/
theorem cleanForEval_idempotent (s : List Char) :
    StatCore.cleanForEval (StatCore.cleanForEval s) = StatCore.cleanForEval s := by
  unfold StatCore.cleanForEval StatCore.rx1
  have hclean : ∀ c ∈ StatCore.rx2
      (StatCore.rx1Aux (stripLower s).length (stripLower s)), cleanChar c = true :=
    rx2_clean _ (rx1_clean _ _ (stripLower_clean s))
  rw [stripLower_id _ hclean]
  have hsf : siteFreeB (StatCore.rx2
      (StatCore.rx1Aux (stripLower s).length (stripLower s))) = true :=
    rx2_siteFree _ (rx1_siteFree _ _ le_rfl)
  rw [siteFree_rx1_id _ _ hsf]
  exact noPair_rx2_id _ (rx2_noPair _)
